import Mathlib

/-!
# kube-role-gen: aggregation of discovered API resources into RBAC policy rules

A shallow embedding of the aggregation loop of `main` (src/main.go, lines 148-225),
of `mapSetToList` (lines 309-317) and of the merge step (lines 279-291), followed by
the properties the specification states about them.

Modelling conventions.

* A Go `string` is a `List Char`.  Every separator the program uses (`/`, `!`, `,`)
  is a single ASCII byte, so splitting the UTF-8 bytes on the separator and splitting
  the code points on it agree; byte-wise and code-point-wise lexicographic order agree
  as well.
* A Go `map[string][]string` is an association list with unique keys, kept in insertion
  order.  Go does not fix the order in which `range` visits a map; every `range` over a
  map is therefore resolved by a `RangeOrder`, which may return any permutation of the
  keys and may answer differently at every call site.
* The `orderedmap.OrderedMap` is the same association list; `Keys()` is its key list in
  insertion order, `Set` overwrites in place or appends.
* `log.Fatalf` is the result `none`.
-/

namespace KubeRoleGen

/-- A Go string. -/
abbrev Str := List Char

/-- The fields of `metav1.APIResource` the program reads. -/
structure APIResource where
  Name : Str
  Verbs : List Str
deriving DecidableEq, Repr

/-- The fields of `metav1.APIResourceList` the program reads. -/
structure APIResourceList where
  GroupVersion : Str
  APIResources : List APIResource
deriving DecidableEq, Repr

/-- The fields of `rbacv1.PolicyRule` the program fills in. -/
structure PolicyRule where
  APIGroups : List Str
  Verbs : List Str
  Resources : List Str
deriving DecidableEq, Repr

/-- The program's own `ClusterRole` struct (main.go, lines 296-307); a rule of it has
the same three fields as `PolicyRule`. -/
structure ClusterRole where
  APIVersion : Str
  Kind : Str
  MetadataName : Str
  Rules : List PolicyRule
deriving DecidableEq, Repr

/-! ## Library functions of Go used by the loop -/

/-- Go's `strings.Split(s, sep)` for a one-byte separator: the pieces between the
occurrences of `sep`; `n` occurrences give `n + 1` pieces, the empty string gives
one empty piece. -/
def Split (sep : Char) : Str → List Str
  | [] => [[]]
  | c :: cs =>
    if c = sep then [] :: Split sep cs
    else
      match Split sep cs with
      | [] => [[c]]
      | h :: t => (c :: h) :: t

/-- Go's `strings.Join(elems, sep)` for a one-byte separator. -/
def Join (sep : Char) : List Str → Str
  | [] => []
  | [a] => a
  | a :: b :: rest => a ++ sep :: Join sep (b :: rest)

/-- The order `a <= b` of Go strings: lexicographic on the code units. -/
def strLe : Str → Str → Bool
  | [], _ => true
  | _ :: _, [] => false
  | a :: as, b :: bs =>
    if a.toNat < b.toNat then true
    else if b.toNat < a.toNat then false
    else strLe as bs

/-- Insertion of one string into an ascending list. -/
def orderedInsert (s : Str) : List Str → List Str
  | [] => [s]
  | t :: ts => if strLe s t then s :: t :: ts else t :: orderedInsert s ts

/-- Go's `sort.Strings`: the ascending arrangement of the list.  The order on strings is
total and antisymmetric, so the result of any sorting algorithm is this one. -/
def sortStrings : List Str → List Str
  | [] => []
  | s :: ss => orderedInsert s (sortStrings ss)

/-- The library function `slices.Contains`. -/
def Contains (l : List Str) (s : Str) : Bool := l.contains s

/-! ## Maps -/

/-- A `map[string][]string` or an `OrderedMap` with such values: entries with unique
keys in insertion order. -/
abbrev GoMap := List (Str × List Str)

/-- The lookup `m[k]` with its presence flag, and `OrderedMap.Get`. -/
def mapGet : GoMap → Str → Option (List Str)
  | [], _ => none
  | (k', v) :: rest, k => if k' = k then some v else mapGet rest k

/-- The assignment `m[k] = v`, and `OrderedMap.Set`: an existing key keeps its place. -/
def mapSet : GoMap → Str → List Str → GoMap
  | [], k, v => [(k, v)]
  | (k', v') :: rest, k, v =>
    if k' = k then (k, v) :: rest else (k', v') :: mapSet rest k v

/-- The keys in insertion order, and `OrderedMap.Keys`. -/
def mapKeys (m : GoMap) : List Str := m.map Prod.fst

/-- The statement `set[r] = true` on a `map[string]bool`, the set being kept as the
list of its members in insertion order. -/
def setAdd (set : List Str) (r : Str) : List Str :=
  if r ∈ set then set else set ++ [r]

/-- The iteration orders Go chooses: `keys i` for the `range resourcesByVerb` of the
`i`-th listing, `set i k` for the `range` inside the call of `mapSetToList` made for
verb string `k` of the `i`-th listing.  Each is a permutation of the keys. -/
structure RangeOrder where
  keys : Nat → List Str → List Str
  set : Nat → Str → List Str → List Str
  keys_perm : ∀ i l, (keys i l).Perm l
  set_perm : ∀ i k l, (set i k l).Perm l

/-- Every `range` visits the keys in insertion order. -/
def RangeOrder.insertion : RangeOrder where
  keys := fun _ l => l
  set := fun _ _ l => l
  keys_perm := fun _ l => List.Perm.refl l
  set_perm := fun _ _ l => List.Perm.refl l

/-- Every `range` visits the keys in reverse insertion order. -/
def RangeOrder.reversed : RangeOrder where
  keys := fun _ l => l.reverse
  set := fun _ _ l => l.reverse
  keys_perm := fun _ l => List.reverse_perm l
  set_perm := fun _ _ l => List.reverse_perm l

/-- The function `mapSetToList` (main.go, lines 309-317): the members of the set in the order the
`range` visits them. -/
def mapSetToList (order : List Str → List Str) (initialMap : List Str) : List Str :=
  order initialMap

/-! ## The aggregation loop of `main` -/

/-- Lines 154-158: the part of the group/version before the first `/`, and `core` for
the group/version `v1`. -/
def groupOnly (groupVersion : Str) : Str :=
  if groupVersion = "v1".toList then "core".toList
  else (Split '/' groupVersion).headD []

/-- Lines 170-175: the verbs sorted and joined by commas. -/
def verbString (verbs : List Str) : Str := Join ',' (sortStrings verbs)

/-- Lines 160-182: the map from verb string to resource names of one listing. -/
def resourcesByVerb (restricedResources : List Str) : List APIResource → GoMap → GoMap
  | [], rbv => rbv
  | apiResource :: rest, rbv =>
    if Contains restricedResources apiResource.Name = false then
      match mapGet rbv (verbString apiResource.Verbs) with
      | some value =>
        resourcesByVerb restricedResources rest
          (mapSet rbv (verbString apiResource.Verbs) (value ++ [apiResource.Name]))
      | none =>
        resourcesByVerb restricedResources rest
          (mapSet rbv (verbString apiResource.Verbs) [apiResource.Name])
    else resourcesByVerb restricedResources rest rbv

/-- Lines 185-188: the key `group!verbs` written into the string builder. -/
def groupVerbKey (group k : Str) : Str := group ++ '!' :: k

/-- Lines 185-201, the body of `for k := range resourcesByVerb`. -/
def mergeVerbKey (ord : RangeOrder) (i : Nat) (group : Str) (rbv : GoMap)
    (resourcesByGroupAndVerb : GoMap) (k : Str) : GoMap :=
  match mapGet resourcesByGroupAndVerb (groupVerbKey group k) with
  | some resourceVal =>
    let resourceSetMap := ((mapGet rbv k).getD []).foldl setAdd (resourceVal.foldl setAdd [])
    mapSet resourcesByGroupAndVerb (groupVerbKey group k)
      (mapSetToList (ord.set i k) resourceSetMap)
  | none =>
    mapSet resourcesByGroupAndVerb (groupVerbKey group k) ((mapGet rbv k).getD [])

/-- Lines 149-203: the listings from the `i`-th on, folded into the ordered map. -/
def resourcesByGroupAndVerb (ord : RangeOrder) (restricedResources : List Str) :
    Nat → List APIResourceList → GoMap → GoMap
  | _, [], m => m
  | i, apiResourceList :: rest, m =>
    let rbv := resourcesByVerb restricedResources apiResourceList.APIResources []
    resourcesByGroupAndVerb ord restricedResources (i + 1) rest
      ((ord.keys i (mapKeys rbv)).foldl
        (mergeVerbKey ord i (groupOnly apiResourceList.GroupVersion) rbv) m)

/-- Lines 207-223: the rule built from one key, or the fatal error when the key does
not split into exactly two pieces. -/
def newPolicyRule (m : GoMap) (k : Str) : Option PolicyRule :=
  match Split '!' k with
  | [g, vs] =>
    some { APIGroups := [if g = "core".toList then [] else g]
           Verbs := Split ',' vs
           Resources := (mapGet m k).getD [] }
  | _ => none

/-- Lines 205-225: the rules of the keys in order; the first fatal error ends the run. -/
def computedPolicyRules (m : GoMap) : List Str → Option (List PolicyRule)
  | [] => some []
  | k :: ks =>
    match newPolicyRule m k with
    | none => none
    | some r =>
      match computedPolicyRules m ks with
      | none => none
      | some rs => some (r :: rs)

/-- Lines 148-225: discovery result and restriction list to rule list. -/
def aggregate (ord : RangeOrder) (apiResourceListArray : List APIResourceList)
    (restricedResources : List Str) : Option (List PolicyRule) :=
  computedPolicyRules (resourcesByGroupAndVerb ord restricedResources 0 apiResourceListArray [])
    (mapKeys (resourcesByGroupAndVerb ord restricedResources 0 apiResourceListArray []))

/-- Lines 226-235: the generated role. -/
def completeRbac (roleNameArg : Str) (rules : List PolicyRule) : ClusterRole where
  APIVersion := "rbac.authorization.k8s.io/v1".toList
  Kind := "ClusterRole".toList
  MetadataName := roleNameArg
  Rules := rules

/-- Lines 280-283: `conjungo.Merge(&base, restricted, nil)` followed by the assignment
of the name.  The merge of the library is the parameter `merge`. -/
def mergedRole (merge : ClusterRole → ClusterRole → ClusterRole)
    (base restricted : ClusterRole) (roleNameArg : Str) : ClusterRole :=
  { merge base restricted with MetadataName := roleNameArg }


/-! ## Vocabulary of the properties -/

/-- The name `n` is in the list stored under the key `k`. -/
def Has (m : GoMap) (k n : Str) : Prop := ∃ v, mapGet m k = some v ∧ n ∈ v

/-- Some unrestricted resource of the discovery result has the aggregation key `key`
(derived group, `!`, joined sorted verbs) and the name `name`. -/
def Carries (apiResourceListArray : List APIResourceList) (restricedResources : List Str)
    (key name : Str) : Prop :=
  ∃ l ∈ apiResourceListArray, ∃ r ∈ l.APIResources,
    Contains restricedResources r.Name = false ∧
    groupVerbKey (groupOnly l.GroupVersion) (verbString r.Verbs) = key ∧ r.Name = name

/-- The verb strings of the unrestricted resources of one listing, each once, in the
order of their first occurrence: the keys of the listing's `resourcesByVerb` in
insertion order. -/
def listingVerbStrings (restricedResources : List Str) (l : APIResourceList) : List Str :=
  ((l.APIResources.filter (fun r => Contains restricedResources r.Name = false)).map
    (fun r => verbString r.Verbs)).foldl setAdd []

/-- The aggregation keys in the order the loop meets them: listing after listing, and
inside the `i`-th listing in the order `ord.keys i` visits its verb strings. -/
def visitedKeys (ord : RangeOrder) (restricedResources : List Str) :
    Nat → List APIResourceList → List Str
  | _, [] => []
  | i, l :: rest =>
    (ord.keys i (listingVerbStrings restricedResources l)).map
        (groupVerbKey (groupOnly l.GroupVersion))
      ++ visitedKeys ord restricedResources (i + 1) rest

/-! ## Concrete inputs -/

/-- The listing `v1` of the specification's end-to-end example: `pods` and `secrets`,
both with the verbs `get, list`. -/
def exampleCore : APIResourceList :=
  { GroupVersion := "v1".toList,
    APIResources :=
      [ { Name := "pods".toList, Verbs := ["get".toList, "list".toList] },
        { Name := "secrets".toList, Verbs := ["get".toList, "list".toList] } ] }

/-- The listing `apps/v1` of the same example: `deployments` with `get, list, watch`. -/
def exampleApps : APIResourceList :=
  { GroupVersion := "apps/v1".toList,
    APIResources :=
      [ { Name := "deployments".toList,
          Verbs := ["get".toList, "list".toList, "watch".toList] } ] }

/-- The discovery result of the specification's end-to-end example. -/
def exampleDiscovery : List APIResourceList := [exampleCore, exampleApps]

/-- One listing whose two resources have the same verbs in different orders. -/
def swappedVerbsListing : APIResourceList :=
  { GroupVersion := "v1".toList,
    APIResources :=
      [ { Name := "pods".toList, Verbs := ["list".toList, "get".toList] },
        { Name := "secrets".toList, Verbs := ["get".toList, "list".toList] } ] }

/-- The discovery result made of `swappedVerbsListing` alone. -/
def swappedVerbsDiscovery : List APIResourceList := [swappedVerbsListing]

/-- One resource whose verb list names `get` twice. -/
def duplicateVerbListing : APIResourceList :=
  { GroupVersion := "v1".toList,
    APIResources := [ { Name := "pods".toList, Verbs := ["get".toList, "get".toList] } ] }

/-- One resource whose only verb contains a comma. -/
def commaVerbListing : APIResourceList :=
  { GroupVersion := "v1".toList,
    APIResources := [ { Name := "pods".toList, Verbs := ["b,a".toList] } ] }

/-- A group/version that starts with `/`: its derived group is the empty string. -/
def emptyGroupListing : APIResourceList :=
  { GroupVersion := "/v1".toList,
    APIResources := [ { Name := "nodes".toList, Verbs := ["get".toList] } ] }

/-- The core listing with one resource, verbs `get`. -/
def coreGetListing : APIResourceList :=
  { GroupVersion := "v1".toList,
    APIResources := [ { Name := "pods".toList, Verbs := ["get".toList] } ] }

/-- One listing that reports `pods` twice with the same verbs. -/
def repeatedNameListing : APIResourceList :=
  { GroupVersion := "v1".toList,
    APIResources :=
      [ { Name := "pods".toList, Verbs := ["get".toList] },
        { Name := "pods".toList, Verbs := ["get".toList] } ] }

/-- One listing with two verb strings: `pods` with `get`, then `secrets` with `list`. -/
def twoKeyListing : APIResourceList :=
  { GroupVersion := "v1".toList,
    APIResources :=
      [ { Name := "pods".toList, Verbs := ["get".toList] },
        { Name := "secrets".toList, Verbs := ["list".toList] } ] }

/-- One resource whose name contains `!`. -/
def bangNameListing : APIResourceList :=
  { GroupVersion := "v1".toList,
    APIResources := [ { Name := "a!b".toList, Verbs := ["get".toList] } ] }

/-- One resource with a verb that contains `!`. -/
def bangVerbListing : APIResourceList :=
  { GroupVersion := "v1".toList,
    APIResources := [ { Name := "pods".toList, Verbs := ["g!t".toList] } ] }

/-- The listing `apps/v1beta1` reporting `deployments` with the verbs of `exampleApps`. -/
def exampleAppsBeta : APIResourceList :=
  { GroupVersion := "apps/v1beta1".toList,
    APIResources :=
      [ { Name := "deployments".toList,
          Verbs := ["get".toList, "list".toList, "watch".toList] } ] }

/-- The members of a list, each once, in the order of their first occurrence. -/
def firstSeen (l : List Str) : List Str := l.foldl setAdd []

/-- The aggregation keys of the unrestricted resources in the order of the discovery
result: listing after listing, resource after resource. -/
def traversalKeys (restricedResources : List Str) : List APIResourceList → List Str
  | [] => []
  | l :: rest =>
    (l.APIResources.filter (fun r => Contains restricedResources r.Name = false)).map
        (fun r => groupVerbKey (groupOnly l.GroupVersion) (verbString r.Verbs))
      ++ traversalKeys restricedResources rest

/-- The `(apiGroups, verbs)` pair of the rule built from a key (main.go, lines 207-215). -/
def keySignature (k : Str) : List Str × List Str :=
  match Split '!' k with
  | [g, vs] => ([if g = "core".toList then [] else g], Split ',' vs)
  | _ => ([], [])

/-- Two resource descriptors that agree up to the order of their verbs. -/
def SameResource (a b : APIResource) : Prop := a.Name = b.Name ∧ a.Verbs.Perm b.Verbs

/-- Two listings of the same group/version that agree up to the order of their
resources and of the verbs of each resource. -/
def SameListing (a b : APIResourceList) : Prop :=
  a.GroupVersion = b.GroupVersion ∧
    ∃ mid, a.APIResources.Perm mid ∧ List.Forall₂ SameResource mid b.APIResources

/-- Two discovery results that agree up to the order of the listings, of the resources
inside each listing and of the verbs inside each resource. -/
def SameInput (x y : List APIResourceList) : Prop :=
  ∃ mid, x.Perm mid ∧ List.Forall₂ SameListing mid y

/-- Two rules with the same groups, the same verbs and the same set of resources. -/
def SameRule (a b : PolicyRule) : Prop :=
  a.APIGroups = b.APIGroups ∧ a.Verbs = b.Verbs ∧ ∀ n, n ∈ a.Resources ↔ n ∈ b.Resources

/-- Two rule lists that are equal as sets of rules. -/
def SameRuleSet (x y : List PolicyRule) : Prop :=
  (∀ a ∈ x, ∃ b ∈ y, SameRule a b) ∧ (∀ b ∈ y, ∃ a ∈ x, SameRule a b)

/-- The discovery result `exampleDiscovery` with its listings, the resources of `v1`
and the verbs of `deployments` in another order. -/
def exampleDiscoveryShuffled : List APIResourceList :=
  [ { GroupVersion := "apps/v1".toList,
      APIResources :=
        [ { Name := "deployments".toList,
            Verbs := ["watch".toList, "get".toList, "list".toList] } ] },
    { GroupVersion := "v1".toList,
      APIResources :=
        [ { Name := "secrets".toList, Verbs := ["get".toList, "list".toList] },
          { Name := "pods".toList, Verbs := ["list".toList, "get".toList] } ] } ]

/-- A deep merge as the specification describes the library's: the scalar fields of
the override replace those of the base, the rule lists are concatenated. -/
def overrideWinsMerge (base override : ClusterRole) : ClusterRole :=
  { APIVersion := override.APIVersion,
    Kind := override.Kind,
    MetadataName := override.MetadataName,
    Rules := base.Rules ++ override.Rules }

/-- An override role that carries the name `custom` and one rule. -/
def customOverride : ClusterRole :=
  { APIVersion := "rbac.authorization.k8s.io/v1".toList,
    Kind := "ClusterRole".toList,
    MetadataName := "custom".toList,
    Rules := [ { APIGroups := ["".toList], Verbs := ["get".toList],
                 Resources := ["secrets".toList] } ] }

/-! ## Properties -/

theorem Split_ne_nil (c : Char) (s : Str) : Split c s ≠ [] := by
  cases s with
  | nil => simp [Split]
  | cons x xs =>
    unfold Split
    split
    · simp
    · split <;> simp

theorem Split_cons_sep (c : Char) (s : Str) : Split c (c :: s) = [] :: Split c s := by
  simp [Split]

theorem Split_cons_ne (c x : Char) (s : Str) (h : x ≠ c) :
    Split c (x :: s) = (x :: (Split c s).headD []) :: (Split c s).tail := by
  have hne := Split_ne_nil c s
  rw [Split, if_neg h]
  cases hs : Split c s with
  | nil => exact absurd hs hne
  | cons a t => simp

theorem length_Split (c : Char) (s : Str) : (Split c s).length = s.count c + 1 := by
  induction s with
  | nil => simp [Split]
  | cons x xs ih =>
    by_cases h : x = c
    · subst h
      simp [Split_cons_sep, ih]
    · rw [Split_cons_ne c x xs h]
      have hne := Split_ne_nil c xs
      cases hs : Split c xs with
      | nil => exact absurd hs hne
      | cons a t =>
        rw [hs] at ih
        have : List.count c (x :: xs) = List.count c xs := by
          rw [List.count_cons]; simp [h]
        simp [this] at ih ⊢
        omega

theorem Split_of_not_mem (c : Char) (s : Str) (h : c ∉ s) : Split c s = [s] := by
  induction s with
  | nil => simp [Split]
  | cons x xs ih =>
    have hx : x ≠ c := fun e => h (by simp [e])
    have hxs : c ∉ xs := fun e => h (by simp [e])
    rw [Split_cons_ne c x xs hx, ih hxs]
    simp

theorem Split_append_sep (c : Char) (a b : Str) (h : c ∉ a) :
    Split c (a ++ c :: b) = a :: Split c b := by
  induction a with
  | nil => simp [Split_cons_sep]
  | cons x xs ih =>
    have hx : x ≠ c := fun e => h (by simp [e])
    have hxs : c ∉ xs := fun e => h (by simp [e])
    rw [List.cons_append, Split_cons_ne c x _ hx, ih hxs]
    simp

theorem Join_Split (c : Char) (s : Str) : Join c (Split c s) = s := by
  induction s with
  | nil => simp [Split, Join]
  | cons x xs ih =>
    have hne := Split_ne_nil c xs
    by_cases h : x = c
    · subst h
      rw [Split_cons_sep]
      cases hs : Split x xs with
      | nil => exact absurd hs hne
      | cons a t =>
        rw [hs] at ih
        simp [Join, ih]
    · rw [Split_cons_ne c x xs h]
      cases hs : Split c xs with
      | nil => exact absurd hs hne
      | cons a t =>
        rw [hs] at ih
        cases t with
        | nil => simpa [Join] using ih
        | cons b t' =>
          simp only [Join] at ih
          simp [Join, ih]

theorem Split_injective (c : Char) (s t : Str) (h : Split c s = Split c t) : s = t := by
  rw [← Join_Split c s, ← Join_Split c t, h]

theorem Split_Join (c : Char) (l : List Str) (hl : l ≠ []) (h : ∀ x ∈ l, c ∉ x) :
    Split c (Join c l) = l := by
  induction l with
  | nil => exact absurd rfl hl
  | cons a t ih =>
    cases t with
    | nil =>
      simp only [Join]
      exact Split_of_not_mem c a (h a (by simp))
    | cons b t' =>
      simp only [Join]
      rw [Split_append_sep c a _ (h a (by simp))]
      rw [ih (by simp) (fun x hx => h x (List.mem_cons_of_mem _ hx))]

theorem mem_Join (c d : Char) (l : List Str) (hd : d ≠ c) :
    d ∈ Join c l ↔ ∃ x ∈ l, d ∈ x := by
  induction l with
  | nil => simp [Join]
  | cons a t ih =>
    cases t with
    | nil => simp [Join]
    | cons b t' =>
      simp only [Join, List.mem_append, List.mem_cons, ih]
      constructor
      · rintro (h | h | ⟨x, hx, hdx⟩)
        · exact ⟨a, Or.inl rfl, h⟩
        · exact absurd h hd
        · exact ⟨x, Or.inr hx, hdx⟩
      · rintro ⟨x, hx | hx, hdx⟩
        · subst hx; exact Or.inl hdx
        · exact Or.inr (Or.inr ⟨x, hx, hdx⟩)



/-! ### The order on strings and `sort.Strings` -/

theorem strLe_total (a b : Str) : strLe a b = true ∨ strLe b a = true := by
  induction a generalizing b with
  | nil => simp [strLe]
  | cons x xs ih =>
    cases b with
    | nil => simp [strLe]
    | cons y ys =>
      simp only [strLe]
      by_cases h1 : x.toNat < y.toNat
      · simp [h1]
      · by_cases h2 : y.toNat < x.toNat
        · simp [h2]
        · simp only [h1, h2, if_false]
          exact ih ys

theorem strLe_trans (a b c : Str) (hab : strLe a b = true) (hbc : strLe b c = true) :
    strLe a c = true := by
  induction a generalizing b c with
  | nil => simp [strLe]
  | cons x xs ih =>
    cases b with
    | nil => simp [strLe] at hab
    | cons y ys =>
      cases c with
      | nil => simp [strLe] at hbc
      | cons z zs =>
        simp only [strLe] at hab hbc ⊢
        by_cases hxy : x.toNat < y.toNat
        · by_cases hyz : y.toNat < z.toNat
          · have : x.toNat < z.toNat := by omega
            simp [this]
          · by_cases hzy : z.toNat < y.toNat
            · simp [hyz, hzy] at hbc
            · have : x.toNat < z.toNat := by omega
              simp [this]
        · by_cases hyx : y.toNat < x.toNat
          · simp [hxy, hyx] at hab
          · simp only [hxy, hyx, if_false] at hab
            by_cases hyz : y.toNat < z.toNat
            · have : x.toNat < z.toNat := by omega
              simp [this]
            · by_cases hzy : z.toNat < y.toNat
              · simp [hyz, hzy] at hbc
              · simp only [hyz, hzy, if_false] at hbc
                have h1 : ¬ x.toNat < z.toNat := by omega
                have h2 : ¬ z.toNat < x.toNat := by omega
                simp only [h1, h2, if_false]
                exact ih ys zs hab hbc

theorem char_eq_of_toNat_eq (x y : Char) (h : x.toNat = y.toNat) : x = y := by
  apply Char.ext
  apply UInt32.ext
  exact h

theorem strLe_antisymm (a b : Str) (hab : strLe a b = true) (hba : strLe b a = true) :
    a = b := by
  induction a generalizing b with
  | nil =>
    cases b with
    | nil => rfl
    | cons y ys => simp [strLe] at hba
  | cons x xs ih =>
    cases b with
    | nil => simp [strLe] at hab
    | cons y ys =>
      simp only [strLe] at hab hba
      by_cases hxy : x.toNat < y.toNat
      · have : ¬ y.toNat < x.toNat := by omega
        simp [hxy, this] at hba
      · by_cases hyx : y.toNat < x.toNat
        · simp [hxy, hyx] at hab
        · simp only [hxy, hyx, if_false] at hab hba
          have hc : x = y := char_eq_of_toNat_eq x y (by omega)
          rw [hc, ih ys hab hba]

theorem orderedInsert_perm (s : Str) (l : List Str) : (orderedInsert s l).Perm (s :: l) := by
  induction l with
  | nil => simp [orderedInsert]
  | cons t ts ih =>
    simp only [orderedInsert]
    split
    · exact List.Perm.refl _
    · exact ((List.Perm.cons t ih).trans (List.Perm.swap s t ts))

theorem sortStrings_perm (l : List Str) : (sortStrings l).Perm l := by
  induction l with
  | nil => simp [sortStrings]
  | cons s ss ih =>
    simp only [sortStrings]
    exact (orderedInsert_perm s _).trans (List.Perm.cons s ih)

theorem mem_sortStrings (l : List Str) (s : Str) : s ∈ sortStrings l ↔ s ∈ l :=
  (sortStrings_perm l).mem_iff

theorem orderedInsert_sorted (s : Str) (l : List Str)
    (h : l.Pairwise (fun a b => strLe a b = true)) :
    (orderedInsert s l).Pairwise (fun a b => strLe a b = true) := by
  induction l with
  | nil => simp [orderedInsert]
  | cons t ts ih =>
    simp only [orderedInsert]
    rw [List.pairwise_cons] at h
    by_cases hst : strLe s t = true
    · rw [if_pos hst, List.pairwise_cons]
      refine ⟨?_, List.pairwise_cons.mpr h⟩
      intro u hu
      rcases List.mem_cons.mp hu with rfl | hu
      · exact hst
      · exact strLe_trans s t u hst (h.1 u hu)
    · rw [if_neg hst, List.pairwise_cons]
      refine ⟨?_, ih h.2⟩
      intro u hu
      have hu2 : u ∈ s :: ts := (orderedInsert_perm s ts).mem_iff.mp hu
      rcases List.mem_cons.mp hu2 with rfl | hu2
      · rcases strLe_total u t with h1 | h1
        · exact absurd h1 hst
        · exact h1
      · exact h.1 u hu2

theorem sortStrings_sorted (l : List Str) :
    (sortStrings l).Pairwise (fun a b => strLe a b = true) := by
  induction l with
  | nil => simp [sortStrings]
  | cons s ss ih => exact orderedInsert_sorted s _ ih

theorem sorted_perm_unique (l₁ l₂ : List Str) (hp : l₁.Perm l₂)
    (h₁ : l₁.Pairwise (fun a b => strLe a b = true))
    (h₂ : l₂.Pairwise (fun a b => strLe a b = true)) : l₁ = l₂ := by
  induction l₁ generalizing l₂ with
  | nil => exact (List.Perm.nil_eq hp)
  | cons a as ih =>
    cases l₂ with
    | nil => exact absurd hp.length_eq (by simp)
    | cons b bs =>
      rw [List.pairwise_cons] at h₁ h₂
      have hab : a = b := by
        have ha : a ∈ b :: bs := hp.mem_iff.mp (List.mem_cons_self a as)
        have hb : b ∈ a :: as := hp.mem_iff.mpr (List.mem_cons_self b bs)
        rcases List.mem_cons.mp ha with h | h
        · exact h
        · rcases List.mem_cons.mp hb with h' | h'
          · exact h'.symm
          · exact strLe_antisymm a b (h₁.1 b h') (h₂.1 a h)
      subst hab
      rw [ih bs (List.Perm.cons_inv hp) h₁.2 h₂.2]

theorem sortStrings_eq_of_perm (l₁ l₂ : List Str) (hp : l₁.Perm l₂) :
    sortStrings l₁ = sortStrings l₂ :=
  sorted_perm_unique _ _
    (((sortStrings_perm l₁).trans hp).trans (sortStrings_perm l₂).symm)
    (sortStrings_sorted l₁) (sortStrings_sorted l₂)

theorem verbString_eq_of_perm (l₁ l₂ : List Str) (hp : l₁.Perm l₂) :
    verbString l₁ = verbString l₂ := by
  unfold verbString
  rw [sortStrings_eq_of_perm l₁ l₂ hp]


/-! ### Maps and sets -/

theorem mapGet_mapSet_self (m : GoMap) (k : Str) (v : List Str) :
    mapGet (mapSet m k v) k = some v := by
  induction m with
  | nil => simp [mapSet, mapGet]
  | cons p rest ih =>
    obtain ⟨k', v'⟩ := p
    by_cases h : k' = k
    · simp [mapSet, mapGet, h]
    · simp [mapSet, mapGet, h, ih]

theorem mapGet_mapSet_ne (m : GoMap) (k k' : Str) (v : List Str) (hne : k' ≠ k) :
    mapGet (mapSet m k v) k' = mapGet m k' := by
  induction m with
  | nil =>
    have : ¬ k = k' := fun e => hne e.symm
    simp [mapSet, mapGet, this]
  | cons p rest ih =>
    obtain ⟨k₀, v₀⟩ := p
    by_cases h : k₀ = k
    · subst h
      have : ¬ k₀ = k' := fun e => hne e.symm
      simp [mapSet, mapGet, this]
    · by_cases h' : k₀ = k'
      · subst h'
        simp [mapSet, mapGet, h]
      · simp [mapSet, mapGet, h, h', ih]

theorem mem_mapKeys_iff (m : GoMap) (k : Str) :
    k ∈ mapKeys m ↔ ∃ v, mapGet m k = some v := by
  induction m with
  | nil => simp [mapKeys, mapGet]
  | cons p rest ih =>
    obtain ⟨k₀, v₀⟩ := p
    by_cases h : k₀ = k
    · simp [mapKeys, mapGet, h]
    · have h' : ¬ k = k₀ := fun e => h e.symm
      simp only [mapKeys, List.map_cons, List.mem_cons, h', false_or, mapGet, h, if_false]
      exact ih

theorem mapGet_eq_none_iff (m : GoMap) (k : Str) : mapGet m k = none ↔ k ∉ mapKeys m := by
  rw [mem_mapKeys_iff]
  cases mapGet m k <;> simp

theorem mapKeys_mapSet (m : GoMap) (k : Str) (v : List Str) :
    mapKeys (mapSet m k v) = setAdd (mapKeys m) k := by
  induction m with
  | nil => simp [mapSet, mapKeys, setAdd]
  | cons p rest ih =>
    obtain ⟨k₀, v₀⟩ := p
    by_cases h : k₀ = k
    · subst h
      simp [mapSet, mapKeys, setAdd]
    · have h' : ¬ k = k₀ := fun e => h e.symm
      simp only [mapKeys] at ih
      simp only [mapSet, h, if_false, mapKeys, List.map_cons, ih, setAdd, List.mem_cons, h',
        false_or]
      split <;> simp

theorem mem_setAdd (s : List Str) (r x : Str) : x ∈ setAdd s r ↔ x ∈ s ∨ x = r := by
  unfold setAdd
  split
  · constructor
    · exact Or.inl
    · rintro (h | h)
      · exact h
      · subst h; assumption
  · simp

theorem nodup_setAdd (s : List Str) (r : Str) (h : s.Nodup) : (setAdd s r).Nodup := by
  unfold setAdd
  split
  · exact h
  · rename_i hr
    rw [List.nodup_append]
    refine ⟨h, List.nodup_singleton r, ?_⟩
    intro a ha hb
    rw [List.mem_singleton] at hb
    subst hb
    exact hr ha

theorem mem_foldl_setAdd (l s : List Str) (x : Str) :
    x ∈ l.foldl setAdd s ↔ x ∈ s ∨ x ∈ l := by
  induction l generalizing s with
  | nil => simp
  | cons a t ih =>
    rw [List.foldl_cons, ih, mem_setAdd, List.mem_cons]
    tauto

theorem nodup_foldl_setAdd (l s : List Str) (h : s.Nodup) : (l.foldl setAdd s).Nodup := by
  induction l generalizing s with
  | nil => exact h
  | cons a t ih => exact ih _ (nodup_setAdd s a h)

theorem has_mapSet (m : GoMap) (k k' n : Str) (v : List Str) :
    Has (mapSet m k v) k' n ↔ (k' = k ∧ n ∈ v) ∨ (k' ≠ k ∧ Has m k' n) := by
  unfold Has
  by_cases h : k' = k
  · subst h
    simp [mapGet_mapSet_self]
  · simp [mapGet_mapSet_ne m k k' v h, h]

theorem has_mem_mapKeys (m : GoMap) (k n : Str) (h : Has m k n) : k ∈ mapKeys m := by
  obtain ⟨v, hv, _⟩ := h
  exact (mem_mapKeys_iff m k).mpr ⟨v, hv⟩

theorem has_iff_mem_getD (m : GoMap) (k n : Str) : Has m k n ↔ n ∈ (mapGet m k).getD [] := by
  unfold Has
  cases mapGet m k <;> simp


/-! ### The contents of the maps built by the loop -/

theorem has_resourcesByVerb (R : List Str) (rs : List APIResource) (rbv : GoMap) (k n : Str) :
    Has (resourcesByVerb R rs rbv) k n ↔
      Has rbv k n ∨ ∃ r ∈ rs, Contains R r.Name = false ∧ verbString r.Verbs = k ∧ r.Name = n := by
  induction rs generalizing rbv with
  | nil => simp [resourcesByVerb]
  | cons a rest ih =>
    unfold resourcesByVerb
    by_cases hc : Contains R a.Name = false
    · rw [if_pos hc]
      cases hg : mapGet rbv (verbString a.Verbs) with
      | none =>
        simp only
        rw [ih, has_mapSet]
        have hnone : ∀ x, ¬ Has rbv (verbString a.Verbs) x := by
          rintro x ⟨v, hv, _⟩
          rw [hg] at hv
          exact Option.noConfusion hv
        constructor
        · rintro ((⟨h1, h2⟩ | ⟨_, h2⟩) | ⟨r, hr, h⟩)
          · rw [List.mem_singleton] at h2
            exact Or.inr ⟨a, List.mem_cons_self _ _, hc, h1.symm, h2.symm⟩
          · exact Or.inl h2
          · exact Or.inr ⟨r, List.mem_cons_of_mem _ hr, h⟩
        · rintro (h | ⟨r, hr, h1, h2, h3⟩)
          · by_cases hk : k = verbString a.Verbs
            · subst hk; exact absurd h (hnone n)
            · exact Or.inl (Or.inr ⟨hk, h⟩)
          · rcases List.mem_cons.mp hr with rfl | hr
            · exact Or.inl (Or.inl ⟨h2.symm, by rw [List.mem_singleton]; exact h3.symm⟩)
            · exact Or.inr ⟨r, hr, h1, h2, h3⟩
      | some value =>
        simp only
        rw [ih, has_mapSet]
        have hsome : ∀ x, Has rbv (verbString a.Verbs) x ↔ x ∈ value := by
          intro x
          unfold Has
          rw [hg]
          simp
        constructor
        · rintro ((⟨h1, h2⟩ | ⟨_, h2⟩) | ⟨r, hr, h⟩)
          · rcases List.mem_append.mp h2 with h2 | h2
            · subst h1; exact Or.inl ((hsome n).mpr h2)
            · rw [List.mem_singleton] at h2
              exact Or.inr ⟨a, List.mem_cons_self _ _, hc, h1.symm, h2.symm⟩
          · exact Or.inl h2
          · exact Or.inr ⟨r, List.mem_cons_of_mem _ hr, h⟩
        · rintro (h | ⟨r, hr, h1, h2, h3⟩)
          · by_cases hk : k = verbString a.Verbs
            · subst hk
              exact Or.inl (Or.inl ⟨rfl, List.mem_append.mpr (Or.inl ((hsome n).mp h))⟩)
            · exact Or.inl (Or.inr ⟨hk, h⟩)
          · rcases List.mem_cons.mp hr with rfl | hr
            · exact Or.inl (Or.inl ⟨h2.symm,
                List.mem_append.mpr (Or.inr (by rw [List.mem_singleton]; exact h3.symm))⟩)
            · exact Or.inr ⟨r, hr, h1, h2, h3⟩
    · rw [if_neg hc, ih]
      constructor
      · rintro (h | ⟨r, hr, h⟩)
        · exact Or.inl h
        · exact Or.inr ⟨r, List.mem_cons_of_mem _ hr, h⟩
      · rintro (h | ⟨r, hr, h1, h2, h3⟩)
        · exact Or.inl h
        · rcases List.mem_cons.mp hr with rfl | hr
          · exact absurd h1 hc
          · exact Or.inr ⟨r, hr, h1, h2, h3⟩

theorem mapKeys_resourcesByVerb (R : List Str) (rs : List APIResource) (rbv : GoMap) :
    mapKeys (resourcesByVerb R rs rbv) =
      ((rs.filter (fun r => Contains R r.Name = false)).map
        (fun r => verbString r.Verbs)).foldl setAdd (mapKeys rbv) := by
  induction rs generalizing rbv with
  | nil => simp [resourcesByVerb]
  | cons a rest ih =>
    unfold resourcesByVerb
    by_cases hc : Contains R a.Name = false
    · rw [if_pos hc]
      have hf : List.filter (fun r => decide (Contains R r.Name = false)) (a :: rest) =
          a :: List.filter (fun r => decide (Contains R r.Name = false)) rest := by
        rw [List.filter_cons]; simp [hc]
      rw [hf, List.map_cons, List.foldl_cons]
      cases hg : mapGet rbv (verbString a.Verbs) <;> simp only <;> rw [ih, mapKeys_mapSet]
    · rw [if_neg hc]
      have hf : List.filter (fun r => decide (Contains R r.Name = false)) (a :: rest) =
          List.filter (fun r => decide (Contains R r.Name = false)) rest := by
        rw [List.filter_cons]; simp [hc]
      rw [hf, ih]

theorem mapKeys_resourcesByVerb_nil (R : List Str) (l : APIResourceList) :
    mapKeys (resourcesByVerb R l.APIResources []) = listingVerbStrings R l := by
  rw [mapKeys_resourcesByVerb]
  rfl

theorem mem_listingVerbStrings (R : List Str) (l : APIResourceList) (k : Str) :
    k ∈ listingVerbStrings R l ↔
      ∃ r ∈ l.APIResources, Contains R r.Name = false ∧ verbString r.Verbs = k := by
  unfold listingVerbStrings
  rw [mem_foldl_setAdd]
  simp only [List.not_mem_nil, false_or, List.mem_map, List.mem_filter, decide_eq_true_eq]
  constructor
  · rintro ⟨r, ⟨hr, hc⟩, hk⟩
    exact ⟨r, hr, hc, hk⟩
  · rintro ⟨r, hr, hc, hk⟩
    exact ⟨r, ⟨hr, hc⟩, hk⟩

theorem nodup_listingVerbStrings (R : List Str) (l : APIResourceList) :
    (listingVerbStrings R l).Nodup :=
  nodup_foldl_setAdd _ _ List.nodup_nil

theorem has_mergeVerbKey (ord : RangeOrder) (i : Nat) (g : Str) (rbv m : GoMap) (k K n : Str) :
    Has (mergeVerbKey ord i g rbv m k) K n ↔
      Has m K n ∨ (K = groupVerbKey g k ∧ Has rbv k n) := by
  unfold mergeVerbKey
  cases hg : mapGet m (groupVerbKey g k) with
  | none =>
    simp only
    rw [has_mapSet, ← has_iff_mem_getD]
    have hnone : ∀ x, ¬ Has m (groupVerbKey g k) x := by
      rintro x ⟨v, hv, _⟩
      rw [hg] at hv
      exact Option.noConfusion hv
    constructor
    · rintro (h | ⟨_, h⟩)
      · exact Or.inr h
      · exact Or.inl h
    · rintro (h | h)
      · by_cases hk : K = groupVerbKey g k
        · subst hk; exact absurd h (hnone n)
        · exact Or.inr ⟨hk, h⟩
      · exact Or.inl h
  | some value =>
    simp only
    rw [has_mapSet]
    have hsome : ∀ x, Has m (groupVerbKey g k) x ↔ x ∈ value := by
      intro x
      unfold Has
      rw [hg]
      simp
    have hmem : n ∈ mapSetToList (ord.set i k)
          (((mapGet rbv k).getD []).foldl setAdd (value.foldl setAdd [])) ↔
        n ∈ value ∨ Has rbv k n := by
      unfold mapSetToList
      rw [(ord.set_perm i k _).mem_iff, mem_foldl_setAdd, mem_foldl_setAdd, has_iff_mem_getD]
      simp
    rw [hmem]
    constructor
    · rintro (⟨h1, h2 | h2⟩ | ⟨_, h⟩)
      · subst h1; exact Or.inl ((hsome n).mpr h2)
      · exact Or.inr ⟨h1, h2⟩
      · exact Or.inl h
    · rintro (h | ⟨h1, h2⟩)
      · by_cases hk : K = groupVerbKey g k
        · subst hk; exact Or.inl ⟨rfl, Or.inl ((hsome n).mp h)⟩
        · exact Or.inr ⟨hk, h⟩
      · exact Or.inl ⟨h1, Or.inr h2⟩

theorem mapKeys_mergeVerbKey (ord : RangeOrder) (i : Nat) (g : Str) (rbv m : GoMap) (k : Str) :
    mapKeys (mergeVerbKey ord i g rbv m k) = setAdd (mapKeys m) (groupVerbKey g k) := by
  unfold mergeVerbKey
  cases hg : mapGet m (groupVerbKey g k) <;> simp only <;> rw [mapKeys_mapSet]

theorem has_foldl_mergeVerbKey (ord : RangeOrder) (i : Nat) (g : Str) (rbv : GoMap)
    (ks : List Str) (m : GoMap) (K n : Str) :
    Has (ks.foldl (mergeVerbKey ord i g rbv) m) K n ↔
      Has m K n ∨ ∃ k ∈ ks, K = groupVerbKey g k ∧ Has rbv k n := by
  induction ks generalizing m with
  | nil => simp
  | cons a t ih =>
    rw [List.foldl_cons, ih, has_mergeVerbKey]
    constructor
    · rintro ((h | ⟨h1, h2⟩) | ⟨k, hk, h⟩)
      · exact Or.inl h
      · exact Or.inr ⟨a, List.mem_cons_self _ _, h1, h2⟩
      · exact Or.inr ⟨k, List.mem_cons_of_mem _ hk, h⟩
    · rintro (h | ⟨k, hk, h1, h2⟩)
      · exact Or.inl (Or.inl h)
      · rcases List.mem_cons.mp hk with rfl | hk
        · exact Or.inl (Or.inr ⟨h1, h2⟩)
        · exact Or.inr ⟨k, hk, h1, h2⟩

theorem mapKeys_foldl_mergeVerbKey (ord : RangeOrder) (i : Nat) (g : Str) (rbv : GoMap)
    (ks : List Str) (m : GoMap) :
    mapKeys (ks.foldl (mergeVerbKey ord i g rbv) m) =
      (ks.map (groupVerbKey g)).foldl setAdd (mapKeys m) := by
  induction ks generalizing m with
  | nil => simp
  | cons a t ih => rw [List.foldl_cons, ih, mapKeys_mergeVerbKey, List.map_cons, List.foldl_cons]


theorem has_resourcesByGroupAndVerb (ord : RangeOrder) (R : List Str) (i : Nat)
    (input : List APIResourceList) (m : GoMap) (K n : Str) :
    Has (resourcesByGroupAndVerb ord R i input m) K n ↔ Has m K n ∨ Carries input R K n := by
  induction input generalizing i m with
  | nil => simp [resourcesByGroupAndVerb, Carries]
  | cons l rest ih =>
    unfold resourcesByGroupAndVerb
    simp only
    rw [ih, has_foldl_mergeVerbKey]
    have hl : (∃ k ∈ ord.keys i (mapKeys (resourcesByVerb R l.APIResources [])),
          K = groupVerbKey (groupOnly l.GroupVersion) k ∧
            Has (resourcesByVerb R l.APIResources []) k n) ↔
        ∃ r ∈ l.APIResources, Contains R r.Name = false ∧
          groupVerbKey (groupOnly l.GroupVersion) (verbString r.Verbs) = K ∧ r.Name = n := by
      constructor
      · rintro ⟨k, _, hK, hh⟩
        rw [has_resourcesByVerb] at hh
        rcases hh with ⟨v, hv, _⟩ | ⟨r, hr, h1, h2, h3⟩
        · simp [mapGet] at hv
        · exact ⟨r, hr, h1, by rw [h2, hK], h3⟩
      · rintro ⟨r, hr, h1, h2, h3⟩
        have hh : Has (resourcesByVerb R l.APIResources []) (verbString r.Verbs) n :=
          (has_resourcesByVerb R _ _ _ _).mpr (Or.inr ⟨r, hr, h1, rfl, h3⟩)
        refine ⟨verbString r.Verbs, ?_, h2.symm, hh⟩
        rw [(ord.keys_perm i _).mem_iff]
        exact has_mem_mapKeys _ _ _ hh
    rw [hl]
    unfold Carries
    constructor
    · rintro ((h | ⟨r, hr, h⟩) | ⟨l', hl', h⟩)
      · exact Or.inl h
      · exact Or.inr ⟨l, List.mem_cons_self _ _, r, hr, h⟩
      · exact Or.inr ⟨l', List.mem_cons_of_mem _ hl', h⟩
    · rintro (h | ⟨l', hl', r, hr, h⟩)
      · exact Or.inl (Or.inl h)
      · rcases List.mem_cons.mp hl' with rfl | hl'
        · exact Or.inl (Or.inr ⟨r, hr, h⟩)
        · exact Or.inr ⟨l', hl', r, hr, h⟩

theorem mapKeys_resourcesByGroupAndVerb (ord : RangeOrder) (R : List Str) (i : Nat)
    (input : List APIResourceList) (m : GoMap) :
    mapKeys (resourcesByGroupAndVerb ord R i input m) =
      (visitedKeys ord R i input).foldl setAdd (mapKeys m) := by
  induction input generalizing i m with
  | nil => simp [resourcesByGroupAndVerb, visitedKeys]
  | cons l rest ih =>
    unfold resourcesByGroupAndVerb visitedKeys
    simp only
    rw [ih, mapKeys_foldl_mergeVerbKey, mapKeys_resourcesByVerb_nil, List.foldl_append]

theorem mem_visitedKeys (ord : RangeOrder) (R : List Str) (i : Nat)
    (input : List APIResourceList) (K : Str) :
    K ∈ visitedKeys ord R i input ↔ ∃ n, Carries input R K n := by
  induction input generalizing i with
  | nil => simp [visitedKeys, Carries]
  | cons l rest ih =>
    unfold visitedKeys
    rw [List.mem_append, ih, List.mem_map]
    unfold Carries
    constructor
    · rintro (⟨k, hk, hK⟩ | ⟨n, l', hl', h⟩)
      · rw [(ord.keys_perm i _).mem_iff, mem_listingVerbStrings] at hk
        obtain ⟨r, hr, hc, hv⟩ := hk
        exact ⟨r.Name, l, List.mem_cons_self _ _, r, hr, hc, by rw [hv, hK], rfl⟩
      · exact ⟨n, l', List.mem_cons_of_mem _ hl', h⟩
    · rintro ⟨n, l', hl', r, hr, hc, hK, hn⟩
      rcases List.mem_cons.mp hl' with rfl | hl'
      · refine Or.inl ⟨verbString r.Verbs, ?_, hK⟩
        rw [(ord.keys_perm i _).mem_iff, mem_listingVerbStrings]
        exact ⟨r, hr, hc, rfl⟩
      · exact Or.inr ⟨n, l', hl', r, hr, hc, hK, hn⟩

/-- The ordered map the loop ends with. -/
theorem mem_mapKeys_final (ord : RangeOrder) (R : List Str) (input : List APIResourceList)
    (K : Str) :
    K ∈ mapKeys (resourcesByGroupAndVerb ord R 0 input []) ↔ ∃ n, Carries input R K n := by
  rw [mapKeys_resourcesByGroupAndVerb, mem_foldl_setAdd, mem_visitedKeys]
  simp [mapKeys]

theorem nodup_mapKeys_final (ord : RangeOrder) (R : List Str) (input : List APIResourceList) :
    (mapKeys (resourcesByGroupAndVerb ord R 0 input [])).Nodup := by
  rw [mapKeys_resourcesByGroupAndVerb]
  exact nodup_foldl_setAdd _ _ (by simp [mapKeys])

theorem has_final (ord : RangeOrder) (R : List Str) (input : List APIResourceList)
    (K n : Str) :
    Has (resourcesByGroupAndVerb ord R 0 input []) K n ↔ Carries input R K n := by
  rw [has_resourcesByGroupAndVerb]
  constructor
  · rintro (⟨v, hv, _⟩ | h)
    · simp [mapGet] at hv
    · exact h
  · exact Or.inr

/-! ### The keys and the rules built from them -/

theorem length_Split_groupVerbKey (g k : Str) :
    (Split '!' (groupVerbKey g k)).length = 2 ↔ '!' ∉ g ∧ '!' ∉ k := by
  rw [length_Split]
  unfold groupVerbKey
  rw [List.count_append, List.count_cons_self]
  constructor
  · intro h
    have h1 : List.count '!' g = 0 := by omega
    have h2 : List.count '!' k = 0 := by omega
    exact ⟨List.count_eq_zero.mp h1, List.count_eq_zero.mp h2⟩
  · rintro ⟨h1, h2⟩
    rw [List.count_eq_zero.mpr h1, List.count_eq_zero.mpr h2]

theorem Split_groupVerbKey (g k : Str) (hg : '!' ∉ g) (hk : '!' ∉ k) :
    Split '!' (groupVerbKey g k) = [g, k] := by
  unfold groupVerbKey
  rw [Split_append_sep _ _ _ hg, Split_of_not_mem _ _ hk]

theorem newPolicyRule_eq_none_iff (m : GoMap) (k : Str) :
    newPolicyRule m k = none ↔ (Split '!' k).length ≠ 2 := by
  unfold newPolicyRule
  split
  · rename_i g vs h
    simp [h]
  · rename_i h
    simp only [true_iff]
    intro hlen
    match hs : Split '!' k, hlen with
    | [a, b], _ => exact h a b hs

theorem newPolicyRule_groupVerbKey (m : GoMap) (g k : Str) (r : PolicyRule)
    (h : newPolicyRule m (groupVerbKey g k) = some r) :
    '!' ∉ g ∧ '!' ∉ k ∧
      r = { APIGroups := [if g = "core".toList then [] else g]
            Verbs := Split ',' k
            Resources := (mapGet m (groupVerbKey g k)).getD [] } := by
  have hlen : (Split '!' (groupVerbKey g k)).length = 2 := by
    by_contra hne
    rw [(newPolicyRule_eq_none_iff m _).mpr hne] at h
    exact Option.noConfusion h
  obtain ⟨hg, hk⟩ := (length_Split_groupVerbKey g k).mp hlen
  refine ⟨hg, hk, ?_⟩
  unfold newPolicyRule at h
  rw [Split_groupVerbKey g k hg hk] at h
  simp only [Option.some.injEq] at h
  exact h.symm

theorem computedPolicyRules_eq_none_iff (m : GoMap) (ks : List Str) :
    computedPolicyRules m ks = none ↔ ∃ k ∈ ks, newPolicyRule m k = none := by
  induction ks with
  | nil => simp [computedPolicyRules]
  | cons k t ih =>
    unfold computedPolicyRules
    cases hk : newPolicyRule m k with
    | none => simp [hk]
    | some r =>
      simp only
      cases ht : computedPolicyRules m t with
      | none =>
        simp only [true_iff]
        obtain ⟨k', hk', h⟩ := ih.mp ht
        exact ⟨k', List.mem_cons_of_mem _ hk', h⟩
      | some rs =>
        constructor
        · intro h
          exact Option.noConfusion h
        · rintro ⟨k', hk', h⟩
          rcases List.mem_cons.mp hk' with rfl | hk'
          · rw [hk] at h; exact Option.noConfusion h
          · have := ih.mpr ⟨k', hk', h⟩
            rw [ht] at this
            exact Option.noConfusion this

theorem computedPolicyRules_eq_some (m : GoMap) (ks : List Str) (rules : List PolicyRule)
    (h : computedPolicyRules m ks = some rules) :
    List.Forall₂ (fun k r => newPolicyRule m k = some r) ks rules := by
  induction ks generalizing rules with
  | nil =>
    simp only [computedPolicyRules, Option.some.injEq] at h
    subst h
    exact List.Forall₂.nil
  | cons k t ih =>
    unfold computedPolicyRules at h
    cases hk : newPolicyRule m k with
    | none => rw [hk] at h; exact Option.noConfusion h
    | some r =>
      rw [hk] at h
      simp only at h
      cases ht : computedPolicyRules m t with
      | none => rw [ht] at h; exact Option.noConfusion h
      | some rs =>
        rw [ht] at h
        simp only [Option.some.injEq] at h
        subst h
        exact List.Forall₂.cons hk (ih rs ht)


theorem groupVerbKey_inj (g k g' k' : Str) (hg : '!' ∉ g) (hk : '!' ∉ k)
    (h : groupVerbKey g' k' = groupVerbKey g k) : g' = g ∧ k' = k := by
  have hlen : (Split '!' (groupVerbKey g' k')).length = 2 := by
    rw [h]
    exact (length_Split_groupVerbKey g k).mpr ⟨hg, hk⟩
  obtain ⟨hg', hk'⟩ := (length_Split_groupVerbKey g' k').mp hlen
  have hs := congrArg (Split '!') h
  rw [Split_groupVerbKey g k hg hk, Split_groupVerbKey g' k' hg' hk'] at hs
  simp only [List.cons.injEq, and_true] at hs
  exact hs

theorem forall₂_getElem? {α β : Type} (P : α → β → Prop) (l₁ : List α) (l₂ : List β)
    (h : List.Forall₂ P l₁ l₂) (i : Nat) (a : α) (ha : l₁[i]? = some a) :
    ∃ b, l₂[i]? = some b ∧ P a b := by
  induction h generalizing i with
  | nil => simp at ha
  | cons hab _ ih =>
    cases i with
    | zero =>
      simp only [List.getElem?_cons_zero, Option.some.injEq] at ha
      subst ha
      exact ⟨_, by simp, hab⟩
    | succ j =>
      simp only [List.getElem?_cons_succ] at ha ⊢
      exact ih j ha

theorem forall₂_mem_right {α β : Type} (P : α → β → Prop) (l₁ : List α) (l₂ : List β)
    (h : List.Forall₂ P l₁ l₂) (b : β) (hb : b ∈ l₂) : ∃ a ∈ l₁, P a b := by
  induction h with
  | nil => simp at hb
  | cons hab _ ih =>
    rcases List.mem_cons.mp hb with rfl | hb
    · exact ⟨_, List.mem_cons_self _ _, hab⟩
    · obtain ⟨a, ha, hp⟩ := ih hb
      exact ⟨a, List.mem_cons_of_mem _ ha, hp⟩

theorem forall₂_mem_left {α β : Type} (P : α → β → Prop) (l₁ : List α) (l₂ : List β)
    (h : List.Forall₂ P l₁ l₂) (a : α) (ha : a ∈ l₁) : ∃ b ∈ l₂, P a b := by
  induction h with
  | nil => simp at ha
  | cons hab _ ih =>
    rcases List.mem_cons.mp ha with rfl | ha
    · exact ⟨_, List.mem_cons_self _ _, hab⟩
    · obtain ⟨b, hb, hp⟩ := ih ha
      exact ⟨b, List.mem_cons_of_mem _ hb, hp⟩

theorem forall₂_pairwise {α β : Type} (P : α → β → Prop) (Q : α → α → Prop)
    (S : β → β → Prop) (l₁ : List α) (l₂ : List β) (h : List.Forall₂ P l₁ l₂)
    (hq : l₁.Pairwise Q)
    (hs : ∀ a₁ a₂ b₁ b₂, a₁ ∈ l₁ → a₂ ∈ l₁ → P a₁ b₁ → P a₂ b₂ → Q a₁ a₂ → S b₁ b₂) :
    l₂.Pairwise S := by
  induction h with
  | nil => exact List.Pairwise.nil
  | @cons a b t₁ t₂ hab ht ih =>
    rw [List.pairwise_cons] at hq ⊢
    constructor
    · intro b' hb'
      obtain ⟨a', ha', hp⟩ := forall₂_mem_right P _ _ ht b' hb'
      exact hs a a' b b' (List.mem_cons_self _ _) (List.mem_cons_of_mem _ ha') hab hp
        (hq.1 a' ha')
    · exact ih hq.2 (fun a₁ a₂ b₁ b₂ h₁ h₂ =>
        hs a₁ a₂ b₁ b₂ (List.mem_cons_of_mem _ h₁) (List.mem_cons_of_mem _ h₂))

/-- The rules of a run that did not abort, key by key. -/
theorem aggregate_forall₂ (ord : RangeOrder) (input : List APIResourceList) (R : List Str)
    (rules : List PolicyRule) (h : aggregate ord input R = some rules) :
    List.Forall₂
      (fun k r => newPolicyRule (resourcesByGroupAndVerb ord R 0 input []) k = some r)
      (mapKeys (resourcesByGroupAndVerb ord R 0 input [])) rules :=
  computedPolicyRules_eq_some _ _ _ h

/-- Every rule of a run that did not abort comes from a key carried by an unrestricted
resource, has the group and verbs of that key, and lists the names carried with it. -/
theorem rule_of_key (ord : RangeOrder) (input : List APIResourceList) (R : List Str)
    (K : Str) (rule : PolicyRule)
    (hK : K ∈ mapKeys (resourcesByGroupAndVerb ord R 0 input []))
    (h : newPolicyRule (resourcesByGroupAndVerb ord R 0 input []) K = some rule) :
    ∃ l ∈ input, ∃ r ∈ l.APIResources, Contains R r.Name = false ∧
      K = groupVerbKey (groupOnly l.GroupVersion) (verbString r.Verbs) ∧
      '!' ∉ groupOnly l.GroupVersion ∧ '!' ∉ verbString r.Verbs ∧
      rule.APIGroups =
        [if groupOnly l.GroupVersion = "core".toList then [] else groupOnly l.GroupVersion] ∧
      rule.Verbs = Split ',' (verbString r.Verbs) ∧
      ∀ n, n ∈ rule.Resources ↔ Carries input R K n := by
  obtain ⟨n, l, hl, r, hr, hc, hkey, hn⟩ := (mem_mapKeys_final ord R input K).mp hK
  subst hkey
  obtain ⟨hg, hv, hrule⟩ := newPolicyRule_groupVerbKey _ _ _ _ h
  refine ⟨l, hl, r, hr, hc, rfl, hg, hv, ?_, ?_, ?_⟩
  · rw [hrule]
  · rw [hrule]
  · intro x
    rw [hrule]
    simp only
    rw [← has_iff_mem_getD, has_final]

/-! ### Runs in which a listing has one verb string -/

theorem keys_singleton (ord : RangeOrder) (i : Nat) (k : Str) : ord.keys i [k] = [k] :=
  List.perm_singleton.mp (ord.keys_perm i [k])

theorem resourcesByGroupAndVerb_cons (ord : RangeOrder) (R : List Str) (i : Nat)
    (l : APIResourceList) (rest : List APIResourceList) (m : GoMap) :
    resourcesByGroupAndVerb ord R i (l :: rest) m =
      resourcesByGroupAndVerb ord R (i + 1) rest
        ((ord.keys i (listingVerbStrings R l)).foldl
          (mergeVerbKey ord i (groupOnly l.GroupVersion) (resourcesByVerb R l.APIResources [])) m) := by
  rw [← mapKeys_resourcesByVerb_nil]
  rfl

theorem set_singleton (ord : RangeOrder) (i : Nat) (k x : Str) : ord.set i k [x] = [x] :=
  List.perm_singleton.mp (ord.set_perm i k [x])


/-! ### Grouping -/

/-- C1. Grouping correctness: when aggregation does not abort, every aggregation key
carried by an unrestricted resource `r` of a listing `l` is the key of exactly one
position `i` of the ordered map; the rule emitted at that position has the rewritten
group and the split verb string of the key, and its resources are, as a set, the names
of all unrestricted resources with the same derived group and the same joined sorted
verbs.  A resource of the same derived group whose verbs are a reordering of those of
`r` is therefore in that rule. -/
theorem grouping_correctness (ord : RangeOrder) (input : List APIResourceList)
    (R : List Str) (rules : List PolicyRule) (h : aggregate ord input R = some rules)
    (l : APIResourceList) (hl : l ∈ input) (r : APIResource) (hr : r ∈ l.APIResources)
    (hc : Contains R r.Name = false) :
    ∃ (i : Nat) (rs : List Str),
      (mapKeys (resourcesByGroupAndVerb ord R 0 input []))[i]? =
        some (groupVerbKey (groupOnly l.GroupVersion) (verbString r.Verbs)) ∧
      (∀ j, (mapKeys (resourcesByGroupAndVerb ord R 0 input []))[j]? =
        some (groupVerbKey (groupOnly l.GroupVersion) (verbString r.Verbs)) → j = i) ∧
      rules.length = (mapKeys (resourcesByGroupAndVerb ord R 0 input [])).length ∧
      rules[i]? = some
        ({ APIGroups :=
            [if groupOnly l.GroupVersion = "core".toList then [] else groupOnly l.GroupVersion]
           Verbs := Split ',' (verbString r.Verbs)
           Resources := rs } : PolicyRule) ∧
      (∀ n, n ∈ rs ↔ ∃ l' ∈ input, ∃ r' ∈ l'.APIResources,
        Contains R r'.Name = false ∧ groupOnly l'.GroupVersion = groupOnly l.GroupVersion ∧
          verbString r'.Verbs = verbString r.Verbs ∧ r'.Name = n) ∧
      (∀ l' ∈ input, ∀ r' ∈ l'.APIResources, Contains R r'.Name = false →
        groupOnly l'.GroupVersion = groupOnly l.GroupVersion → r'.Verbs.Perm r.Verbs →
          r'.Name ∈ rs) := by
  have hF := aggregate_forall₂ ord input R rules h
  have hnd := nodup_mapKeys_final ord R input
  have hK : groupVerbKey (groupOnly l.GroupVersion) (verbString r.Verbs) ∈
      mapKeys (resourcesByGroupAndVerb ord R 0 input []) :=
    (mem_mapKeys_final ord R input _).mpr ⟨r.Name, l, hl, r, hr, hc, rfl, rfl⟩
  obtain ⟨i, hi⟩ := List.mem_iff_getElem?.mp hK
  obtain ⟨rule, hrule, hnew⟩ := forall₂_getElem? _ _ _ hF i _ hi
  obtain ⟨hg, hv, hshape⟩ := newPolicyRule_groupVerbKey _ _ _ _ hnew
  have hset : ∀ n, n ∈ (mapGet (resourcesByGroupAndVerb ord R 0 input [])
        (groupVerbKey (groupOnly l.GroupVersion) (verbString r.Verbs))).getD [] ↔
      ∃ l' ∈ input, ∃ r' ∈ l'.APIResources,
        Contains R r'.Name = false ∧ groupOnly l'.GroupVersion = groupOnly l.GroupVersion ∧
          verbString r'.Verbs = verbString r.Verbs ∧ r'.Name = n := by
    intro n
    rw [← has_iff_mem_getD, has_final]
    constructor
    · rintro ⟨l', hl', r', hr', hc', hkey, hn⟩
      obtain ⟨h1, h2⟩ := groupVerbKey_inj _ _ _ _ hg hv hkey
      exact ⟨l', hl', r', hr', hc', h1, h2, hn⟩
    · rintro ⟨l', hl', r', hr', hc', h1, h2, hn⟩
      exact ⟨l', hl', r', hr', hc', by rw [h1, h2], hn⟩
  refine ⟨i, (mapGet (resourcesByGroupAndVerb ord R 0 input [])
    (groupVerbKey (groupOnly l.GroupVersion) (verbString r.Verbs))).getD [],
    hi, ?_, hF.length_eq.symm, ?_, hset, ?_⟩
  · intro j hj
    by_contra hne
    rcases Nat.lt_or_gt_of_ne hne with hlt | hgt
    · have hib : i < (mapKeys (resourcesByGroupAndVerb ord R 0 input [])).length := by
        by_contra hnb
        rw [List.getElem?_eq_none (by omega)] at hi
        exact Option.noConfusion hi
      exact (List.nodup_iff_getElem?_ne_getElem?.mp hnd) j i hlt hib (hj.trans hi.symm)
    · have hjb : j < (mapKeys (resourcesByGroupAndVerb ord R 0 input [])).length := by
        by_contra hnb
        rw [List.getElem?_eq_none (by omega)] at hj
        exact Option.noConfusion hj
      exact (List.nodup_iff_getElem?_ne_getElem?.mp hnd) i j hgt hjb (hi.trans hj.symm)
  · rw [hrule, hshape]
  · intro l' hl' r' hr' hc' hgrp hperm
    exact (hset r'.Name).mpr
      ⟨l', hl', r', hr', hc', hgrp, verbString_eq_of_perm _ _ hperm, rfl⟩

/-- C1, at a concrete input: `pods` with verbs `list, get` and `secrets` with verbs
`get, list` under `v1` are in the one rule of the key `core!get,list`. -/
theorem grouping_correctness_witness :
    aggregate RangeOrder.insertion swappedVerbsDiscovery [] =
      some [{ APIGroups := ["".toList], Verbs := ["get".toList, "list".toList]
              Resources := ["pods".toList, "secrets".toList] }] ∧
    ∃ (i : Nat) (rs : List Str),
      (mapKeys (resourcesByGroupAndVerb RangeOrder.insertion [] 0 swappedVerbsDiscovery []))[i]? =
        some (groupVerbKey (groupOnly "v1".toList) (verbString ["list".toList, "get".toList])) ∧
      (∀ j, (mapKeys
          (resourcesByGroupAndVerb RangeOrder.insertion [] 0 swappedVerbsDiscovery []))[j]? =
        some (groupVerbKey (groupOnly "v1".toList) (verbString ["list".toList, "get".toList])) →
          j = i) ∧
      [({ APIGroups := ["".toList], Verbs := ["get".toList, "list".toList]
          Resources := ["pods".toList, "secrets".toList] } : PolicyRule)].length =
        (mapKeys (resourcesByGroupAndVerb RangeOrder.insertion [] 0 swappedVerbsDiscovery [])).length ∧
      [({ APIGroups := ["".toList], Verbs := ["get".toList, "list".toList]
          Resources := ["pods".toList, "secrets".toList] } : PolicyRule)][i]? = some
        ({ APIGroups :=
            [if groupOnly "v1".toList = "core".toList then [] else groupOnly "v1".toList]
           Verbs := Split ',' (verbString ["list".toList, "get".toList])
           Resources := rs } : PolicyRule) ∧
      (∀ n, n ∈ rs ↔ ∃ l' ∈ swappedVerbsDiscovery, ∃ r' ∈ l'.APIResources,
        Contains [] r'.Name = false ∧ groupOnly l'.GroupVersion = groupOnly "v1".toList ∧
          verbString r'.Verbs = verbString ["list".toList, "get".toList] ∧ r'.Name = n) ∧
      (∀ l' ∈ swappedVerbsDiscovery, ∀ r' ∈ l'.APIResources, Contains [] r'.Name = false →
        groupOnly l'.GroupVersion = groupOnly "v1".toList →
          r'.Verbs.Perm ["list".toList, "get".toList] → r'.Name ∈ rs) :=
  ⟨by decide,
    grouping_correctness RangeOrder.insertion swappedVerbsDiscovery []
      [{ APIGroups := ["".toList], Verbs := ["get".toList, "list".toList]
         Resources := ["pods".toList, "secrets".toList] }] (by decide)
      swappedVerbsListing (by decide) { Name := "pods".toList, Verbs := ["list".toList, "get".toList] }
      (by decide) (by decide)⟩


/-! ### Restrictions -/

/-- C2. Restriction exclusion: for every iteration order, no name of the restriction
list occurs in the resources of an emitted rule, whatever group it was discovered
under; and on the example (`v1` with `pods` and `secrets`, `apps/v1` with
`deployments`, restriction `secrets`) the output is the rule of `pods` followed by the
rule of `apps`. -/
theorem restriction_exclusion (ord : RangeOrder) :
    (∀ (input : List APIResourceList) (R : List Str) (rules : List PolicyRule),
      aggregate ord input R = some rules →
        ∀ n ∈ R, ∀ rule ∈ rules, n ∉ rule.Resources) ∧
    aggregate ord exampleDiscovery ["secrets".toList] =
      some [{ APIGroups := ["".toList], Verbs := ["get".toList, "list".toList]
              Resources := ["pods".toList] },
            { APIGroups := ["apps".toList]
              Verbs := ["get".toList, "list".toList, "watch".toList]
              Resources := ["deployments".toList] }] := by
  constructor
  · intro input R rules h n hn rule hrule hmem
    obtain ⟨K, hK, hnew⟩ := forall₂_mem_right _ _ _ (aggregate_forall₂ ord input R rules h)
      rule hrule
    obtain ⟨_, _, _, _, _, _, _, _, _, _, hres⟩ := rule_of_key ord input R K rule hK hnew
    obtain ⟨l, _, r, _, hc, _, hname⟩ := (hres n).mp hmem
    subst hname
    simp [Contains, hn] at hc
  · have e0 : listingVerbStrings ["secrets".toList] exampleCore = ["get,list".toList] := by
      decide
    have e1 : listingVerbStrings ["secrets".toList] exampleApps =
        ["get,list,watch".toList] := by decide
    unfold aggregate exampleDiscovery
    rw [resourcesByGroupAndVerb_cons, resourcesByGroupAndVerb_cons, e0, e1, keys_singleton,
      keys_singleton]
    rfl

/-- C2, at the example: `secrets` is restricted and is in neither emitted rule. -/
theorem restriction_exclusion_witness :
    "secrets".toList ∉ ({ APIGroups := ["".toList], Verbs := ["get".toList, "list".toList]
                          Resources := ["pods".toList] } : PolicyRule).Resources :=
  (restriction_exclusion RangeOrder.insertion).1 exampleDiscovery ["secrets".toList]
    [{ APIGroups := ["".toList], Verbs := ["get".toList, "list".toList]
       Resources := ["pods".toList] },
     { APIGroups := ["apps".toList]
       Verbs := ["get".toList, "list".toList, "watch".toList]
       Resources := ["deployments".toList] }]
    (by decide) "secrets".toList (by decide) _ (by decide)


/-! ### Verbs -/

theorem split_join_sorted (verbs : List Str) (hcomma : ∀ v ∈ verbs, ',' ∉ v) :
    (Split ',' (Join ',' (sortStrings verbs))).Pairwise (fun a b => strLe a b = true) ∧
      (verbs ≠ [] → Split ',' (Join ',' (sortStrings verbs)) = sortStrings verbs) := by
  have hsplit : verbs ≠ [] → Split ',' (Join ',' (sortStrings verbs)) = sortStrings verbs := by
    intro hne
    apply Split_Join
    · intro he
      have hp := sortStrings_perm verbs
      rw [he] at hp
      exact hne (List.Perm.nil_eq hp).symm
    · intro x hx
      exact hcomma x ((mem_sortStrings _ _).mp hx)
  refine ⟨?_, hsplit⟩
  by_cases hne : verbs = []
  · rw [hne]
    simp [sortStrings, Join, Split]
  · rw [hsplit hne]
    exact sortStrings_sorted verbs

/-- C3, as the code has it: when aggregation does not abort, the verbs of every emitted
rule are the split at the comma of the comma-join of the ascending-sorted verb list of
some unrestricted resource (nothing removes a verb that is listed twice); and for every
discovered resource whose joined sorted verbs give the verbs of the rule and none of
whose verbs contains a comma, the verbs of the rule are in ascending order (equal
neighbours allowed) and are that resource's sorted verb list when it is not empty. -/
theorem verbs_sorted (ord : RangeOrder) (input : List APIResourceList) (R : List Str)
    (rules : List PolicyRule) (h : aggregate ord input R = some rules) :
    ∀ rule ∈ rules,
      (∃ l ∈ input, ∃ r ∈ l.APIResources, Contains R r.Name = false ∧
        rule.Verbs = Split ',' (Join ',' (sortStrings r.Verbs))) ∧
      (∀ l ∈ input, ∀ r ∈ l.APIResources,
        rule.Verbs = Split ',' (Join ',' (sortStrings r.Verbs)) →
        (∀ v ∈ r.Verbs, ',' ∉ v) →
          rule.Verbs.Pairwise (fun a b => strLe a b = true) ∧
          (r.Verbs ≠ [] → rule.Verbs = sortStrings r.Verbs)) := by
  intro rule hrule
  obtain ⟨K, hK, hnew⟩ := forall₂_mem_right _ _ _ (aggregate_forall₂ ord input R rules h)
    rule hrule
  obtain ⟨l, hl, r, hr, hc, _, _, _, _, hverbs, _⟩ := rule_of_key ord input R K rule hK hnew
  refine ⟨⟨l, hl, r, hr, hc, hverbs⟩, ?_⟩
  intro l' _ r' _ heq hcomma
  rw [heq]
  exact split_join_sorted r'.Verbs hcomma

/-- C3, at the example: the verbs of its first rule are the split of the joined sorted
verbs of a resource of the example, and they are ascending. -/
theorem verbs_sorted_witness :
    aggregate RangeOrder.insertion exampleDiscovery [] =
      some [{ APIGroups := ["".toList], Verbs := ["get".toList, "list".toList]
              Resources := ["pods".toList, "secrets".toList] },
            { APIGroups := ["apps".toList]
              Verbs := ["get".toList, "list".toList, "watch".toList]
              Resources := ["deployments".toList] }] ∧
    ((∃ l ∈ exampleDiscovery, ∃ r ∈ l.APIResources, Contains [] r.Name = false ∧
        ["get".toList, "list".toList] = Split ',' (Join ',' (sortStrings r.Verbs))) ∧
      (∀ l ∈ exampleDiscovery, ∀ r ∈ l.APIResources,
        ["get".toList, "list".toList] = Split ',' (Join ',' (sortStrings r.Verbs)) →
        (∀ v ∈ r.Verbs, ',' ∉ v) →
          ["get".toList, "list".toList].Pairwise (fun a b => strLe a b = true) ∧
          (r.Verbs ≠ [] → ["get".toList, "list".toList] = sortStrings r.Verbs))) :=
  ⟨by decide,
    verbs_sorted RangeOrder.insertion exampleDiscovery []
      [{ APIGroups := ["".toList], Verbs := ["get".toList, "list".toList]
         Resources := ["pods".toList, "secrets".toList] },
       { APIGroups := ["apps".toList]
         Verbs := ["get".toList, "list".toList, "watch".toList]
         Resources := ["deployments".toList] }]
      (by decide)
      { APIGroups := ["".toList], Verbs := ["get".toList, "list".toList]
        Resources := ["pods".toList, "secrets".toList] } (by decide)⟩

/-- C3 as stated fails: a resource with the verbs `get, get` gives a rule with the
verbs `get, get`, and a resource with the one verb `b,a` gives a rule with the verbs
`b, a`, which are not ascending. -/
theorem verbs_sorted_nodup_counterexample :
    ((∀ ord : RangeOrder, aggregate ord [duplicateVerbListing] [] =
        some [{ APIGroups := ["".toList], Verbs := ["get".toList, "get".toList]
                Resources := ["pods".toList] }]) ∧
      ¬ ["get".toList, "get".toList].Nodup) ∧
    ((∀ ord : RangeOrder, aggregate ord [commaVerbListing] [] =
        some [{ APIGroups := ["".toList], Verbs := ["b".toList, "a".toList]
                Resources := ["pods".toList] }]) ∧
      ¬ ["b".toList, "a".toList].Pairwise (fun a b => strLe a b = true)) := by
  refine ⟨⟨?_, by decide⟩, ?_, by decide⟩
  · intro ord
    have e0 : listingVerbStrings [] duplicateVerbListing = ["get,get".toList] := by decide
    unfold aggregate
    rw [resourcesByGroupAndVerb_cons, e0, keys_singleton]
    rfl
  · intro ord
    have e0 : listingVerbStrings [] commaVerbListing = ["b,a".toList] := by decide
    unfold aggregate
    rw [resourcesByGroupAndVerb_cons, e0, keys_singleton]
    rfl

/-! ### Uniqueness of rule keys -/

/-- C4, as the code has it: when aggregation does not abort and the derived groups of
the discovery result do not include both the empty string and `core`, no two entries
of the emitted rules have the same `(apiGroups, verbs)` pair. -/
theorem rule_key_unique (ord : RangeOrder) (input : List APIResourceList) (R : List Str)
    (rules : List PolicyRule) (h : aggregate ord input R = some rules)
    (hg : ¬ ((∃ l ∈ input, groupOnly l.GroupVersion = []) ∧
      (∃ l ∈ input, groupOnly l.GroupVersion = "core".toList))) :
    rules.Pairwise (fun a b => ¬ (a.APIGroups = b.APIGroups ∧ a.Verbs = b.Verbs)) := by
  refine forall₂_pairwise _ (fun a b => a ≠ b) _ _ _ (aggregate_forall₂ ord input R rules h)
    (nodup_mapKeys_final ord R input) ?_
  intro K₁ K₂ r₁ r₂ hK₁ hK₂ h₁ h₂ hne
  obtain ⟨l₁, hl₁, a₁, _, _, hk₁, _, _, hgr₁, hv₁, _⟩ := rule_of_key ord input R K₁ r₁ hK₁ h₁
  obtain ⟨l₂, hl₂, a₂, _, _, hk₂, _, _, hgr₂, hv₂, _⟩ := rule_of_key ord input R K₂ r₂ hK₂ h₂
  rintro ⟨hgeq, hveq⟩
  rw [hv₁, hv₂] at hveq
  have hvs := Split_injective _ _ _ hveq
  rw [hgr₁, hgr₂] at hgeq
  simp only [List.cons.injEq, and_true] at hgeq
  have hgroups : groupOnly l₁.GroupVersion = groupOnly l₂.GroupVersion := by
    by_cases c₁ : groupOnly l₁.GroupVersion = "core".toList
    · by_cases c₂ : groupOnly l₂.GroupVersion = "core".toList
      · rw [c₁, c₂]
      · rw [if_pos c₁, if_neg c₂] at hgeq
        exact absurd ⟨⟨l₂, hl₂, hgeq.symm⟩, ⟨l₁, hl₁, c₁⟩⟩ hg
    · by_cases c₂ : groupOnly l₂.GroupVersion = "core".toList
      · rw [if_neg c₁, if_pos c₂] at hgeq
        exact absurd ⟨⟨l₁, hl₁, hgeq⟩, ⟨l₂, hl₂, c₂⟩⟩ hg
      · rw [if_neg c₁, if_neg c₂] at hgeq
        exact hgeq
  apply hne
  rw [hk₁, hk₂, hgroups, hvs]

/-- C4, at the example: no listing of it has an empty derived group, and its two rules
differ in their `(apiGroups, verbs)` pair. -/
theorem rule_key_unique_witness :
    aggregate RangeOrder.insertion exampleDiscovery [] =
      some [{ APIGroups := ["".toList], Verbs := ["get".toList, "list".toList]
              Resources := ["pods".toList, "secrets".toList] },
            { APIGroups := ["apps".toList]
              Verbs := ["get".toList, "list".toList, "watch".toList]
              Resources := ["deployments".toList] }] ∧
    List.Pairwise (fun a b : PolicyRule => ¬ (a.APIGroups = b.APIGroups ∧ a.Verbs = b.Verbs))
      [{ APIGroups := ["".toList], Verbs := ["get".toList, "list".toList]
         Resources := ["pods".toList, "secrets".toList] },
       { APIGroups := ["apps".toList]
         Verbs := ["get".toList, "list".toList, "watch".toList]
         Resources := ["deployments".toList] }] :=
  ⟨by decide,
    rule_key_unique RangeOrder.insertion exampleDiscovery [] _ (by decide) (by decide)⟩

/-- C4 as stated fails: `v1` (derived group `core`, emitted as the empty group) and
`/v1` (derived group empty) with the same verbs give two rules with the same
`(apiGroups, verbs)` pair. -/
theorem rule_key_unique_counterexample :
    (∀ ord : RangeOrder, aggregate ord [coreGetListing, emptyGroupListing] [] =
      some [{ APIGroups := ["".toList], Verbs := ["get".toList]
              Resources := ["pods".toList] },
            { APIGroups := ["".toList], Verbs := ["get".toList]
              Resources := ["nodes".toList] }]) ∧
    ¬ List.Pairwise
        (fun a b : PolicyRule => ¬ (a.APIGroups = b.APIGroups ∧ a.Verbs = b.Verbs))
        [{ APIGroups := ["".toList], Verbs := ["get".toList], Resources := ["pods".toList] },
         { APIGroups := ["".toList], Verbs := ["get".toList],
           Resources := ["nodes".toList] }] := by
  refine ⟨?_, by decide⟩
  intro ord
  have e0 : listingVerbStrings [] coreGetListing = ["get".toList] := by decide
  have e1 : listingVerbStrings [] emptyGroupListing = ["get".toList] := by decide
  unfold aggregate
  rw [resourcesByGroupAndVerb_cons, resourcesByGroupAndVerb_cons, e0, e1, keys_singleton,
    keys_singleton]
  rfl

/-! ### Duplicates in the resources of a rule -/

/-- C5 fails on the code: a listing that reports `pods` twice with the same verbs gives
a rule that lists `pods` twice, whereas the same name reported by two versions of one
group is listed once. -/
theorem resources_duplicate_on_first_insert (ord : RangeOrder) :
    (aggregate ord [repeatedNameListing] [] =
      some [{ APIGroups := ["".toList], Verbs := ["get".toList]
              Resources := ["pods".toList, "pods".toList] }] ∧
      ¬ ["pods".toList, "pods".toList].Nodup) ∧
    aggregate ord [exampleApps, exampleAppsBeta] [] =
      some [{ APIGroups := ["apps".toList]
              Verbs := ["get".toList, "list".toList, "watch".toList]
              Resources := ["deployments".toList] }] := by
  refine ⟨⟨?_, by decide⟩, ?_⟩
  · have e0 : listingVerbStrings [] repeatedNameListing = ["get".toList] := by decide
    unfold aggregate
    rw [resourcesByGroupAndVerb_cons, e0, keys_singleton]
    rfl
  · have e0 : listingVerbStrings [] exampleApps = ["get,list,watch".toList] := by decide
    have e1 : listingVerbStrings [] exampleAppsBeta = ["get,list,watch".toList] := by decide
    have s1 := set_singleton ord 1 "get,list,watch".toList "deployments".toList
    unfold aggregate
    rw [resourcesByGroupAndVerb_cons, resourcesByGroupAndVerb_cons, e0, e1, keys_singleton,
      keys_singleton]
    simp only [resourcesByGroupAndVerb, List.foldl]
    have hm : mergeVerbKey ord 1 (groupOnly exampleAppsBeta.GroupVersion)
        (resourcesByVerb [] exampleAppsBeta.APIResources [])
        (mergeVerbKey ord 0 (groupOnly exampleApps.GroupVersion)
          (resourcesByVerb [] exampleApps.APIResources []) [] "get,list,watch".toList)
        "get,list,watch".toList =
        [("apps!get,list,watch".toList, ["deployments".toList])] := by
      show mapSet _ _ (mapSetToList (ord.set 1 "get,list,watch".toList) ["deployments".toList])
        = _
      unfold mapSetToList
      rw [s1]
      rfl
    rw [hm]
    rfl


/-! ### Order of the rules -/

theorem foldl_setAdd_setAdd (s t : List Str) (x : Str) :
    (setAdd t x).foldl setAdd s = setAdd (t.foldl setAdd s) x := by
  by_cases hx : x ∈ t
  · have hx' : x ∈ t.foldl setAdd s := (mem_foldl_setAdd t s x).mpr (Or.inr hx)
    have e₁ : setAdd t x = t := if_pos hx
    have e₂ : setAdd (t.foldl setAdd s) x = t.foldl setAdd s := if_pos hx'
    rw [e₁, e₂]
  · have e₁ : setAdd t x = t ++ [x] := if_neg hx
    rw [e₁, List.foldl_append]
    rfl

theorem foldl_setAdd_foldl (s t xs : List Str) :
    (xs.foldl setAdd t).foldl setAdd s = xs.foldl setAdd (t.foldl setAdd s) := by
  induction xs generalizing t with
  | nil => rfl
  | cons x xs ih => rw [List.foldl_cons, ih, foldl_setAdd_setAdd, List.foldl_cons]

theorem map_setAdd (f : Str → Str) (hf : Function.Injective f) (t : List Str) (x : Str) :
    (setAdd t x).map f = setAdd (t.map f) (f x) := by
  by_cases hx : x ∈ t
  · have e₁ : setAdd t x = t := if_pos hx
    have e₂ : setAdd (t.map f) (f x) = t.map f := if_pos (List.mem_map_of_mem f hx)
    rw [e₁, e₂]
  · have hx' : f x ∉ t.map f := by
      intro hm
      obtain ⟨y, hy, hxy⟩ := List.mem_map.mp hm
      exact hx (hf hxy ▸ hy)
    have e₁ : setAdd t x = t ++ [x] := if_neg hx
    have e₂ : setAdd (t.map f) (f x) = t.map f ++ [f x] := if_neg hx'
    rw [e₁, e₂, List.map_append]
    rfl

theorem map_foldl_setAdd (f : Str → Str) (hf : Function.Injective f) (t xs : List Str) :
    (xs.foldl setAdd t).map f = (xs.map f).foldl setAdd (t.map f) := by
  induction xs generalizing t with
  | nil => rfl
  | cons x xs ih => rw [List.foldl_cons, ih, map_setAdd f hf, List.map_cons, List.foldl_cons]

theorem groupVerbKey_injective (g : Str) : Function.Injective (groupVerbKey g) := by
  intro a b h
  unfold groupVerbKey at h
  have := List.append_cancel_left h
  simpa using this

theorem firstSeen_visitedKeys_insertion (R : List Str) (i : Nat) (input : List APIResourceList)
    (s : List Str) :
    (visitedKeys RangeOrder.insertion R i input).foldl setAdd s =
      (traversalKeys R input).foldl setAdd s := by
  induction input generalizing i s with
  | nil => rfl
  | cons l rest ih =>
    unfold visitedKeys traversalKeys
    rw [List.foldl_append, List.foldl_append, ih]
    congr 1
    show ((listingVerbStrings R l).map (groupVerbKey (groupOnly l.GroupVersion))).foldl setAdd s
      = _
    unfold listingVerbStrings
    rw [map_foldl_setAdd _ (groupVerbKey_injective _), List.map_nil, foldl_setAdd_foldl,
      List.map_map]
    rfl

theorem newPolicyRule_signature (m : GoMap) (k : Str) (r : PolicyRule)
    (h : newPolicyRule m k = some r) :
    (r.APIGroups, r.Verbs) = keySignature k ∧ r.Resources = (mapGet m k).getD [] := by
  unfold newPolicyRule at h
  unfold keySignature
  split at h
  · rename_i g vs hs
    simp only [Option.some.injEq] at h
    subst h
    exact ⟨rfl, rfl⟩
  · exact Option.noConfusion h

theorem forall₂_map_eq {α β γ : Type} (P : α → β → Prop) (f : α → γ) (g : β → γ)
    (l₁ : List α) (l₂ : List β) (h : List.Forall₂ P l₁ l₂) (hfg : ∀ a b, P a b → g b = f a) :
    l₂.map g = l₁.map f := by
  induction h with
  | nil => rfl
  | cons hab _ ih => rw [List.map_cons, List.map_cons, ih, hfg _ _ hab]

/-- The `(apiGroups, verbs)` pairs of the emitted rules are those of the aggregation
keys in the order the loop first meets them: the listings in order, and inside the
`i`-th listing its distinct verb strings in the order `ord.keys i` visits them; a key
met again keeps its place.  When every `range` follows insertion order, this is the
order of first occurrence in the discovery result. -/
theorem rules_follow_visited_keys (ord : RangeOrder) :
    (∀ (input : List APIResourceList) (R : List Str) (rules : List PolicyRule),
      aggregate ord input R = some rules →
        rules.map (fun r => (r.APIGroups, r.Verbs)) =
          (firstSeen (visitedKeys ord R 0 input)).map keySignature) ∧
    (∀ (input : List APIResourceList) (R : List Str),
      firstSeen (visitedKeys RangeOrder.insertion R 0 input) =
        firstSeen (traversalKeys R input)) := by
  refine ⟨?_, ?_⟩
  · intro input R rules h
    have hF := aggregate_forall₂ ord input R rules h
    rw [mapKeys_resourcesByGroupAndVerb] at hF
    exact forall₂_map_eq _ keySignature (fun r => (r.APIGroups, r.Verbs)) _ _ hF
      (fun k r hkr => (newPolicyRule_signature _ k r hkr).1)
  · intro input R
    exact firstSeen_visitedKeys_insertion R 0 input []

/-- C6 fails on the code: in `twoKeyListing` the key of `pods` (`core!get`) is met
before the key of `secrets` (`core!list`).  When the `range` over `resourcesByVerb`
follows insertion order the rule of `pods` is emitted first, as the claim says; when
it visits the map in reverse the rule of `secrets` is emitted first, so the same input
gives two rule orders, and the second is not the order of first occurrence.  On the
specification's example, where each listing has one verb string, the core rule
precedes the `apps` rule whatever the iteration order. -/
theorem rule_order_depends_on_range :
    firstSeen (traversalKeys [] [twoKeyListing]) = ["core!get".toList, "core!list".toList] ∧
    aggregate RangeOrder.insertion [twoKeyListing] [] =
      some [{ APIGroups := ["".toList], Verbs := ["get".toList]
              Resources := ["pods".toList] },
            { APIGroups := ["".toList], Verbs := ["list".toList]
              Resources := ["secrets".toList] }] ∧
    aggregate RangeOrder.reversed [twoKeyListing] [] =
      some [{ APIGroups := ["".toList], Verbs := ["list".toList]
              Resources := ["secrets".toList] },
            { APIGroups := ["".toList], Verbs := ["get".toList]
              Resources := ["pods".toList] }] ∧
    [(["".toList], ["list".toList]), (["".toList], ["get".toList])] ≠
      (firstSeen (traversalKeys [] [twoKeyListing])).map keySignature ∧
    ∀ ord : RangeOrder, aggregate ord exampleDiscovery [] =
      some [{ APIGroups := ["".toList], Verbs := ["get".toList, "list".toList]
              Resources := ["pods".toList, "secrets".toList] },
            { APIGroups := ["apps".toList]
              Verbs := ["get".toList, "list".toList, "watch".toList]
              Resources := ["deployments".toList] }] := by
  refine ⟨by decide, by decide, by decide, by decide, ?_⟩
  intro ord
  have e0 : listingVerbStrings [] exampleCore = ["get,list".toList] := by decide
  have e1 : listingVerbStrings [] exampleApps = ["get,list,watch".toList] := by decide
  unfold aggregate exampleDiscovery
  rw [resourcesByGroupAndVerb_cons, resourcesByGroupAndVerb_cons, e0, e1, keys_singleton,
    keys_singleton]
  rfl


/-! ### Independence of the order of the discovery result -/

theorem sameListing_carries (a b : APIResourceList) (h : SameListing a b) (R : List Str)
    (K n : Str)
    (ha : ∃ r ∈ a.APIResources, Contains R r.Name = false ∧
      groupVerbKey (groupOnly a.GroupVersion) (verbString r.Verbs) = K ∧ r.Name = n) :
    ∃ r ∈ b.APIResources, Contains R r.Name = false ∧
      groupVerbKey (groupOnly b.GroupVersion) (verbString r.Verbs) = K ∧ r.Name = n := by
  obtain ⟨hgv, mid, hperm, hF⟩ := h
  obtain ⟨r, hr, hc, hK, hn⟩ := ha
  obtain ⟨r', hr', hname, hverbs⟩ := forall₂_mem_left _ _ _ hF r (hperm.mem_iff.mp hr)
  refine ⟨r', hr', ?_, ?_, ?_⟩
  · rw [← hname]; exact hc
  · rw [← hgv, ← verbString_eq_of_perm _ _ hverbs]; exact hK
  · rw [← hname]; exact hn

theorem sameListing_carries_rev (a b : APIResourceList) (h : SameListing a b) (R : List Str)
    (K n : Str)
    (hb : ∃ r ∈ b.APIResources, Contains R r.Name = false ∧
      groupVerbKey (groupOnly b.GroupVersion) (verbString r.Verbs) = K ∧ r.Name = n) :
    ∃ r ∈ a.APIResources, Contains R r.Name = false ∧
      groupVerbKey (groupOnly a.GroupVersion) (verbString r.Verbs) = K ∧ r.Name = n := by
  obtain ⟨hgv, mid, hperm, hF⟩ := h
  obtain ⟨r, hr, hc, hK, hn⟩ := hb
  obtain ⟨r', hr', hname, hverbs⟩ := forall₂_mem_right _ _ _ hF r hr
  refine ⟨r', hperm.mem_iff.mpr hr', ?_, ?_, ?_⟩
  · rw [hname]; exact hc
  · rw [hgv, verbString_eq_of_perm _ _ hverbs]; exact hK
  · rw [hname]; exact hn

theorem sameInput_carries (x y : List APIResourceList) (h : SameInput x y) (R : List Str)
    (K n : Str) : Carries x R K n ↔ Carries y R K n := by
  obtain ⟨mid, hperm, hF⟩ := h
  unfold Carries
  constructor
  · rintro ⟨l, hl, hr⟩
    obtain ⟨l', hl', hsame⟩ := forall₂_mem_left _ _ _ hF l (hperm.mem_iff.mp hl)
    exact ⟨l', hl', sameListing_carries l l' hsame R K n hr⟩
  · rintro ⟨l, hl, hr⟩
    obtain ⟨l', hl', hsame⟩ := forall₂_mem_right _ _ _ hF l hl
    exact ⟨l', hperm.mem_iff.mpr hl', sameListing_carries_rev l' l hsame R K n hr⟩

theorem aggregate_eq_none_iff (ord : RangeOrder) (input : List APIResourceList)
    (R : List Str) :
    aggregate ord input R = none ↔
      ∃ K, (∃ n, Carries input R K n) ∧ (Split '!' K).length ≠ 2 := by
  unfold aggregate
  rw [computedPolicyRules_eq_none_iff]
  constructor
  · rintro ⟨K, hK, hnone⟩
    exact ⟨K, (mem_mapKeys_final ord R input K).mp hK, (newPolicyRule_eq_none_iff _ K).mp hnone⟩
  · rintro ⟨K, hK, hlen⟩
    exact ⟨K, (mem_mapKeys_final ord R input K).mpr hK, (newPolicyRule_eq_none_iff _ K).mpr hlen⟩

theorem sameInput_rules_sub (ord₁ ord₂ : RangeOrder) (x y : List APIResourceList)
    (R : List Str) (hc : ∀ K n, Carries x R K n ↔ Carries y R K n)
    (rules₁ rules₂ : List PolicyRule) (h₁ : aggregate ord₁ x R = some rules₁)
    (h₂ : aggregate ord₂ y R = some rules₂) :
    ∀ a ∈ rules₁, ∃ b ∈ rules₂, SameRule a b := by
  intro a ha
  obtain ⟨K, hK, hnew⟩ := forall₂_mem_right _ _ _ (aggregate_forall₂ ord₁ x R rules₁ h₁) a ha
  have hK₂ : K ∈ mapKeys (resourcesByGroupAndVerb ord₂ R 0 y []) := by
    rw [mem_mapKeys_final] at hK ⊢
    obtain ⟨n, hn⟩ := hK
    exact ⟨n, (hc K n).mp hn⟩
  obtain ⟨b, hb, hnew₂⟩ := forall₂_mem_left _ _ _ (aggregate_forall₂ ord₂ y R rules₂ h₂) K hK₂
  obtain ⟨hs₁, hr₁⟩ := newPolicyRule_signature _ K a hnew
  obtain ⟨hs₂, hr₂⟩ := newPolicyRule_signature _ K b hnew₂
  have hs : (a.APIGroups, a.Verbs) = (b.APIGroups, b.Verbs) := hs₁.trans hs₂.symm
  simp only [Prod.mk.injEq] at hs
  refine ⟨b, hb, hs.1, hs.2, ?_⟩
  intro n
  rw [hr₁, hr₂, ← has_iff_mem_getD, ← has_iff_mem_getD, has_final, has_final]
  exact hc K n

/-- C7. Order-independence: for two discovery results that agree up to the order of
the listings, of the resources inside each listing and of the verbs inside each
resource, for the same restriction list and for any two choices of iteration order,
aggregation aborts on both or on neither, and when it does not abort the two rule
lists are equal as sets of rules (same groups, same verbs, same set of resources). -/
theorem order_independence (ord₁ ord₂ : RangeOrder) (x y : List APIResourceList)
    (R : List Str) (hxy : SameInput x y) :
    (aggregate ord₁ x R = none ↔ aggregate ord₂ y R = none) ∧
    ∀ rules₁ rules₂, aggregate ord₁ x R = some rules₁ → aggregate ord₂ y R = some rules₂ →
      SameRuleSet rules₁ rules₂ := by
  have hc : ∀ K n, Carries x R K n ↔ Carries y R K n := sameInput_carries x y hxy R
  constructor
  · rw [aggregate_eq_none_iff, aggregate_eq_none_iff]
    constructor
    · rintro ⟨K, ⟨n, hn⟩, hlen⟩
      exact ⟨K, ⟨n, (hc K n).mp hn⟩, hlen⟩
    · rintro ⟨K, ⟨n, hn⟩, hlen⟩
      exact ⟨K, ⟨n, (hc K n).mpr hn⟩, hlen⟩
  · intro rules₁ rules₂ h₁ h₂
    refine ⟨sameInput_rules_sub ord₁ ord₂ x y R hc rules₁ rules₂ h₁ h₂, ?_⟩
    intro b hb
    obtain ⟨a, ha, hab⟩ := sameInput_rules_sub ord₂ ord₁ y x R
      (fun K n => (hc K n).symm) rules₂ rules₁ h₂ h₁ b hb
    exact ⟨a, ha, hab.1.symm, hab.2.1.symm, fun n => (hab.2.2 n).symm⟩

theorem exampleDiscovery_sameInput : SameInput exampleDiscovery exampleDiscoveryShuffled := by
  refine ⟨[exampleApps, exampleCore], List.Perm.swap _ _ _, ?_⟩
  refine List.Forall₂.cons ⟨rfl, _, List.Perm.refl _, ?_⟩
    (List.Forall₂.cons ⟨rfl, [_, _], List.Perm.swap _ _ _, ?_⟩ List.Forall₂.nil)
  · exact List.Forall₂.cons ⟨rfl, by decide⟩ List.Forall₂.nil
  · exact List.Forall₂.cons ⟨rfl, List.Perm.refl _⟩
      (List.Forall₂.cons ⟨rfl, by decide⟩ List.Forall₂.nil)

/-- C7, at the example and a reordering of it, the first run in insertion order and
the second in reverse order: neither aborts and the rule lists are equal as sets. -/
theorem order_independence_witness :
    SameInput exampleDiscovery exampleDiscoveryShuffled ∧
    aggregate RangeOrder.insertion exampleDiscovery [] =
      some [{ APIGroups := ["".toList], Verbs := ["get".toList, "list".toList]
              Resources := ["pods".toList, "secrets".toList] },
            { APIGroups := ["apps".toList]
              Verbs := ["get".toList, "list".toList, "watch".toList]
              Resources := ["deployments".toList] }] ∧
    aggregate RangeOrder.reversed exampleDiscoveryShuffled [] =
      some [{ APIGroups := ["apps".toList]
              Verbs := ["get".toList, "list".toList, "watch".toList]
              Resources := ["deployments".toList] },
            { APIGroups := ["".toList], Verbs := ["get".toList, "list".toList]
              Resources := ["secrets".toList, "pods".toList] }] ∧
    SameRuleSet
      [{ APIGroups := ["".toList], Verbs := ["get".toList, "list".toList]
         Resources := ["pods".toList, "secrets".toList] },
       { APIGroups := ["apps".toList]
         Verbs := ["get".toList, "list".toList, "watch".toList]
         Resources := ["deployments".toList] }]
      [{ APIGroups := ["apps".toList]
         Verbs := ["get".toList, "list".toList, "watch".toList]
         Resources := ["deployments".toList] },
       { APIGroups := ["".toList], Verbs := ["get".toList, "list".toList]
         Resources := ["secrets".toList, "pods".toList] }] :=
  ⟨exampleDiscovery_sameInput, by decide, by decide,
    (order_independence RangeOrder.insertion RangeOrder.reversed exampleDiscovery
      exampleDiscoveryShuffled [] exampleDiscovery_sameInput).2 _ _ (by decide) (by decide)⟩


/-! ### Groups -/

theorem headD_Split (c : Char) (s : Str) :
    (Split c s).headD [] = s.takeWhile (fun x => decide (x ≠ c)) := by
  induction s with
  | nil => rfl
  | cons x xs ih =>
    by_cases h : x = c
    · subst h
      simp [Split_cons_sep]
    · have hd : decide (x ≠ c) = true := decide_eq_true h
      rw [Split_cons_ne c x xs h, List.takeWhile_cons, List.headD_cons, ih]
      simp only [hd, if_true]

/-- C8. Group derivation and core-group rewrite: when aggregation does not abort, every
emitted rule has exactly one group, and it is never `core`; every unrestricted resource
is in the resources of an emitted rule that carries its joined sorted verbs, whose
group is the empty string when the resource was discovered under `v1`, and is the
part of the group/version before its first `/` when the resource was discovered under
another group/version and that part is not `core`; a part equal to `core` gives the
empty group as well. -/
theorem group_derivation (ord : RangeOrder) (input : List APIResourceList) (R : List Str)
    (rules : List PolicyRule) (h : aggregate ord input R = some rules) :
    (∀ rule ∈ rules, rule.APIGroups.length = 1 ∧ rule.APIGroups ≠ ["core".toList]) ∧
    (∀ l ∈ input, ∀ r ∈ l.APIResources, Contains R r.Name = false →
      ∃ rule ∈ rules, r.Name ∈ rule.Resources ∧
        rule.Verbs = Split ',' (verbString r.Verbs) ∧
        (l.GroupVersion = "v1".toList → rule.APIGroups = ["".toList]) ∧
        (l.GroupVersion ≠ "v1".toList →
          l.GroupVersion.takeWhile (fun x => decide (x ≠ '/')) ≠ "core".toList →
            rule.APIGroups = [l.GroupVersion.takeWhile (fun x => decide (x ≠ '/'))]) ∧
        (l.GroupVersion.takeWhile (fun x => decide (x ≠ '/')) = "core".toList →
          rule.APIGroups = ["".toList])) := by
  have hF := aggregate_forall₂ ord input R rules h
  constructor
  · intro rule hrule
    obtain ⟨K, hK, hnew⟩ := forall₂_mem_right _ _ _ hF rule hrule
    obtain ⟨l, _, r, _, _, _, _, _, hgr, _, _⟩ := rule_of_key ord input R K rule hK hnew
    rw [hgr]
    refine ⟨rfl, ?_⟩
    by_cases c : groupOnly l.GroupVersion = "core".toList
    · rw [if_pos c]; decide
    · rw [if_neg c]
      intro he
      simp only [List.cons.injEq, and_true] at he
      exact c he
  · intro l hl r hr hc
    have hK : groupVerbKey (groupOnly l.GroupVersion) (verbString r.Verbs) ∈
        mapKeys (resourcesByGroupAndVerb ord R 0 input []) :=
      (mem_mapKeys_final ord R input _).mpr ⟨r.Name, l, hl, r, hr, hc, rfl, rfl⟩
    obtain ⟨rule, hrule, hnew⟩ := forall₂_mem_left _ _ _ hF _ hK
    obtain ⟨_, _, hshape⟩ := newPolicyRule_groupVerbKey _ _ _ _ hnew
    refine ⟨rule, hrule, ?_, ?_, ?_, ?_, ?_⟩
    · rw [hshape]
      simp only
      rw [← has_iff_mem_getD, has_final]
      exact ⟨l, hl, r, hr, hc, rfl, rfl⟩
    · rw [hshape]
    · intro hv1
      rw [hshape]
      simp only
      have hg : groupOnly l.GroupVersion = "core".toList := by
        unfold groupOnly
        rw [if_pos hv1]
      rw [if_pos hg]
      rfl
    · intro hv1 hcore
      rw [hshape]
      simp only
      have hg : groupOnly l.GroupVersion =
          l.GroupVersion.takeWhile (fun x => decide (x ≠ '/')) := by
        unfold groupOnly
        rw [if_neg hv1, headD_Split]
      rw [hg, if_neg hcore]
    · intro hcore
      rw [hshape]
      simp only
      have hg : groupOnly l.GroupVersion = "core".toList := by
        unfold groupOnly
        by_cases hv1 : l.GroupVersion = "v1".toList
        · rw [if_pos hv1]
        · rw [if_neg hv1, headD_Split, hcore]
      rw [if_pos hg]
      rfl

/-- C8, at the example: its two rules have one group each, `pods` of `v1` is in the
rule of the empty group and `deployments` of `apps/v1` in the rule of `apps`. -/
theorem group_derivation_witness :
    aggregate RangeOrder.insertion exampleDiscovery [] =
      some [{ APIGroups := ["".toList], Verbs := ["get".toList, "list".toList]
              Resources := ["pods".toList, "secrets".toList] },
            { APIGroups := ["apps".toList]
              Verbs := ["get".toList, "list".toList, "watch".toList]
              Resources := ["deployments".toList] }] ∧
    ((∀ rule ∈
        [({ APIGroups := ["".toList], Verbs := ["get".toList, "list".toList]
            Resources := ["pods".toList, "secrets".toList] } : PolicyRule),
         { APIGroups := ["apps".toList]
           Verbs := ["get".toList, "list".toList, "watch".toList]
           Resources := ["deployments".toList] }],
        rule.APIGroups.length = 1 ∧ rule.APIGroups ≠ ["core".toList]) ∧
      (∀ l ∈ exampleDiscovery, ∀ r ∈ l.APIResources, Contains [] r.Name = false →
        ∃ rule ∈
          [({ APIGroups := ["".toList], Verbs := ["get".toList, "list".toList]
              Resources := ["pods".toList, "secrets".toList] } : PolicyRule),
           { APIGroups := ["apps".toList]
             Verbs := ["get".toList, "list".toList, "watch".toList]
             Resources := ["deployments".toList] }],
          r.Name ∈ rule.Resources ∧
          rule.Verbs = Split ',' (verbString r.Verbs) ∧
          (l.GroupVersion = "v1".toList → rule.APIGroups = ["".toList]) ∧
          (l.GroupVersion ≠ "v1".toList →
            l.GroupVersion.takeWhile (fun x => decide (x ≠ '/')) ≠ "core".toList →
              rule.APIGroups = [l.GroupVersion.takeWhile (fun x => decide (x ≠ '/'))]) ∧
          (l.GroupVersion.takeWhile (fun x => decide (x ≠ '/')) = "core".toList →
            rule.APIGroups = ["".toList]))) :=
  ⟨by decide, group_derivation RangeOrder.insertion exampleDiscovery [] _ (by decide)⟩

/-! ### The fatal error -/

theorem bang_mem_verbString (verbs : List Str) :
    '!' ∈ verbString verbs ↔ ∃ v ∈ verbs, '!' ∈ v := by
  unfold verbString
  rw [mem_Join ',' '!' _ (by decide)]
  constructor
  · rintro ⟨x, hx, h⟩
    exact ⟨x, (mem_sortStrings _ _).mp hx, h⟩
  · rintro ⟨x, hx, h⟩
    exact ⟨x, (mem_sortStrings _ _).mpr hx, h⟩

/-- C9, as the code has it: for every iteration order, discovery result and
restriction list, aggregation ends with the fatal error exactly when some key of the
ordered map does not split at `!` into exactly two pieces, and that is exactly when
some unrestricted resource has a `!` in the derived group of its listing or in one of
its verbs. -/
theorem abort_iff (ord : RangeOrder) (input : List APIResourceList) (R : List Str) :
    (aggregate ord input R = none ↔
      ∃ K ∈ mapKeys (resourcesByGroupAndVerb ord R 0 input []), (Split '!' K).length ≠ 2) ∧
    (aggregate ord input R = none ↔
      ∃ l ∈ input, ∃ r ∈ l.APIResources, Contains R r.Name = false ∧
        ('!' ∈ groupOnly l.GroupVersion ∨ ∃ v ∈ r.Verbs, '!' ∈ v)) := by
  constructor
  · unfold aggregate
    rw [computedPolicyRules_eq_none_iff]
    constructor
    · rintro ⟨K, hK, hnone⟩
      exact ⟨K, hK, (newPolicyRule_eq_none_iff _ K).mp hnone⟩
    · rintro ⟨K, hK, hlen⟩
      exact ⟨K, hK, (newPolicyRule_eq_none_iff _ K).mpr hlen⟩
  · rw [aggregate_eq_none_iff]
    constructor
    · rintro ⟨K, ⟨n, l, hl, r, hr, hc, hK, _⟩, hlen⟩
      refine ⟨l, hl, r, hr, hc, ?_⟩
      subst hK
      rw [Ne, length_Split_groupVerbKey, not_and_or, not_not, not_not,
        bang_mem_verbString] at hlen
      exact hlen
    · rintro ⟨l, hl, r, hr, hc, hbang⟩
      refine ⟨groupVerbKey (groupOnly l.GroupVersion) (verbString r.Verbs),
        ⟨r.Name, l, hl, r, hr, hc, rfl, rfl⟩, ?_⟩
      rw [Ne, length_Split_groupVerbKey, not_and_or, not_not, not_not, bang_mem_verbString]
      exact hbang

/-- C9 as stated fails: a resource named `a!b` does not abort the run, and a resource
`pods` of `v1` with the verb `g!t` aborts it although neither the group nor the
resource name contains `!`. -/
theorem abort_iff_counterexample :
    ((∀ ord : RangeOrder, aggregate ord [bangNameListing] [] =
        some [{ APIGroups := ["".toList], Verbs := ["get".toList]
                Resources := ["a!b".toList] }]) ∧
      '!' ∈ "a!b".toList) ∧
    ((∀ ord : RangeOrder, aggregate ord [bangVerbListing] [] = none) ∧
      '!' ∉ groupOnly bangVerbListing.GroupVersion ∧ '!' ∉ bangVerbListing.GroupVersion ∧
      ∀ r ∈ bangVerbListing.APIResources, '!' ∉ r.Name) := by
  refine ⟨⟨?_, by decide⟩, ?_, by decide, by decide, by decide⟩
  · intro ord
    have e0 : listingVerbStrings [] bangNameListing = ["get".toList] := by decide
    unfold aggregate
    rw [resourcesByGroupAndVerb_cons, e0, keys_singleton]
    rfl
  · intro ord
    have e0 : listingVerbStrings [] bangVerbListing = ["g!t".toList] := by decide
    unfold aggregate
    rw [resourcesByGroupAndVerb_cons, e0, keys_singleton]
    rfl

/-! ### The merge step -/

/-- C10. Merge name override: whatever the merge of the library returns for the base
and the override, the merged role carries the name given on the command line; merging
a base named `restricted-cluster-role` with an override named `custom` under the name
`foo` gives a role named `foo`. -/
theorem merge_name_override (merge : ClusterRole → ClusterRole → ClusterRole)
    (base restricted : ClusterRole) (roleNameArg : Str) :
    (mergedRole merge base restricted roleNameArg).MetadataName = roleNameArg ∧
    (overrideWinsMerge (completeRbac "restricted-cluster-role".toList []) customOverride
        ).MetadataName = "custom".toList ∧
    (mergedRole overrideWinsMerge (completeRbac "restricted-cluster-role".toList [])
        customOverride "foo".toList).MetadataName = "foo".toList :=
  ⟨rfl, rfl, rfl⟩

end KubeRoleGen
